import Mathlib

/-!
# Sorting visualiser (`sort.c`): bubble sort and merge sort with step events

Shallow embedding of the two sorting engines of `sort.c` and of the step
callback they drive.  An `int array[]` is a `List Int`; array reads are
`List.getD _ 0` and array writes are `List.set`.  Loop counters and index
arguments are natural numbers (the program only ever uses non-negative ones).
The callback `callback(renderer, array, size, idx1, idx2)` is modelled by
recording a `StepEvent`: the array contents at the moment of the call together
with the three integer arguments.  Rendering, tone synthesis and the delay have
no effect on the array and are not modelled.

The element values are only copied and compared, never computed with, so
unbounded `Int` behaves as the 32-bit `int` does.  The loop bounds
`size - 1`, `size - i - 1`, `n1 = mid - left + 1` (written `mid + 1 - left`)
and `n2 = right - mid` are natural-number subtractions: they have the value
of the C expression whenever that value is non-negative, and they are `0`
whenever it is zero or negative, in which case the loop does not iterate
on either side.  The three `while` loops of `merge` and the recursion
of `mergeSort` are defined by well-founded recursion, so each function is
total: every call returns.

The function `drawArray` is modelled by the list of the rectangles it fills,
with the integer division of C (`Int.tdiv`).

The file has three layers:

* the program (`swap`, `bubbleSort`, `merge`, `mergeSort`) over `List Int`;
* the same code over an arbitrary element type compared through a `key`
  (namespace `Keyed`), used to follow elements tagged with their original
  position; the program is the instance `key = id`;
* theorems.
-/

namespace SortViz

/-! ## Data model -/

/-- One invocation of the visualisation callback (`sort.c:15`): the array as it
is when the callback runs, and the `size`, `idx1`, `idx2` arguments. -/
structure StepEvent (α : Type) where
  array : List α
  size : Int
  idx1 : Int
  idx2 : Int
deriving DecidableEq

/-- Result of running an engine: the final array and the callback invocations
in the order they happened. -/
structure Run (α : Type) where
  array : List α
  events : List (StepEvent α)
deriving DecidableEq

/-- The constant `ARRAY_SIZE` (`sort.c:10`). -/
def ARRAY_SIZE : Nat := 100

/-- Local variables of `merge` while its three loops run (`sort.c:87`):
the array, the events emitted so far, and the counters `i`, `j`, `k`. -/
structure MergeState (α : Type) where
  array : List α
  events : List (StepEvent α)
  i : Nat
  j : Nat
  k : Nat
deriving DecidableEq

/-! ## The program -/

/-- The function `swap` (`sort.c:17-21`), applied to the cells `array[a]` and
`array[b]`: `temp = *a; *a = *b; *b = temp`. -/
def swap (array : List Int) (a b : Nat) : List Int :=
  let temp := array.getD a 0
  let array := array.set a (array.getD b 0)
  array.set b temp

/-- Body of the inner loop of `bubbleSort` (`sort.c:58-72`) at index `j`. -/
def bubbleStep (size : Nat) (s : Run Int) (j : Nat) : Run Int :=
  if s.array.getD j 0 > s.array.getD (j + 1) 0 then
    let array := swap s.array j (j + 1)
    ⟨array, s.events ++ [⟨array, size, j, j + 1⟩]⟩
  else s

/-- Inner loop of `bubbleSort` (`sort.c:57`): `for (j = 0; j < size - i - 1; ++j)`. -/
def bubblePass (size : Nat) (s : Run Int) (i : Nat) : Run Int :=
  (List.range (size - i - 1)).foldl (bubbleStep size) s

/-- The function `bubbleSort` (`sort.c:55-75`): `for (i = 0; i < size - 1; ++i)`
around the inner loop. -/
def bubbleSort (array : List Int) (size : Nat) : Run Int :=
  (List.range (size - 1)).foldl (bubblePass size) ⟨array, []⟩

/-- First loop of `merge` (`sort.c:88-109`): `while (i < n1 && j < n2)`. -/
def mergeLoop1 (L R : List Int) (n1 n2 : Nat) (s : MergeState Int) : MergeState Int :=
  if _h : s.i < n1 ∧ s.j < n2 then
    if L.getD s.i 0 ≤ R.getD s.j 0 then
      let array := s.array.set s.k (L.getD s.i 0)
      mergeLoop1 L R n1 n2
        ⟨array, s.events ++ [⟨array, ARRAY_SIZE, s.k, -1⟩], s.i + 1, s.j, s.k + 1⟩
    else
      let array := s.array.set s.k (R.getD s.j 0)
      mergeLoop1 L R n1 n2
        ⟨array, s.events ++ [⟨array, ARRAY_SIZE, s.k, -1⟩], s.i, s.j + 1, s.k + 1⟩
  else s
termination_by (n1 - s.i) + (n2 - s.j)
decreasing_by all_goals simp_wf; all_goals omega

/-- Second loop of `merge` (`sort.c:111-127`): `while (i < n1)`. -/
def mergeLoop2 (L : List Int) (n1 : Nat) (s : MergeState Int) : MergeState Int :=
  if _h : s.i < n1 then
    let array := s.array.set s.k (L.getD s.i 0)
    mergeLoop2 L n1
      ⟨array, s.events ++ [⟨array, ARRAY_SIZE, s.k, -1⟩], s.i + 1, s.j, s.k + 1⟩
  else s
termination_by n1 - s.i
decreasing_by all_goals simp_wf; all_goals omega

/-- Third loop of `merge` (`sort.c:129-145`): `while (j < n2)`. -/
def mergeLoop3 (R : List Int) (n2 : Nat) (s : MergeState Int) : MergeState Int :=
  if _h : s.j < n2 then
    let array := s.array.set s.k (R.getD s.j 0)
    mergeLoop3 R n2
      ⟨array, s.events ++ [⟨array, ARRAY_SIZE, s.k, -1⟩], s.i, s.j + 1, s.k + 1⟩
  else s
termination_by n2 - s.j
decreasing_by all_goals simp_wf; all_goals omega

/-- The function `merge` (`sort.c:77-149`).  `L` and `R` are the two temporary
buffers, filled from `array[left + i]` and `array[mid + 1 + i]`.  The run
length `n1 = mid - left + 1` is computed as `mid + 1 - left`, so that it is `0`
where the `int` of C is zero or negative (`mid < left`), as `n2 = right - mid`
is `0` for `right < mid`. -/
def merge (array : List Int) (left mid right : Nat) : Run Int :=
  let n1 := mid + 1 - left
  let n2 := right - mid
  let L := (List.range n1).map fun i => array.getD (left + i) 0
  let R := (List.range n2).map fun i => array.getD (mid + 1 + i) 0
  let s := mergeLoop1 L R n1 n2 ⟨array, [], 0, 0, left⟩
  let s := mergeLoop2 L n1 s
  let s := mergeLoop3 R n2 s
  ⟨s.array, s.events⟩

/-- The function `mergeSort` (`sort.c:151-160`). -/
def mergeSort (array : List Int) (left right : Nat) : Run Int :=
  if _h : left < right then
    let mid := left + (right - left) / 2
    let r1 := mergeSort array left mid
    let r2 := mergeSort r1.array (mid + 1) right
    let r3 := merge r2.array left mid right
    ⟨r3.array, r1.events ++ r2.events ++ r3.events⟩
  else ⟨array, []⟩
termination_by right - left
decreasing_by all_goals simp_wf; all_goals omega

/-! ## The same code over keyed elements -/

namespace Keyed

variable {α : Type}

/-- The function `swap` on cells holding elements of any type; `d` stands for
the content of a cell outside the array. -/
def swap (d : α) (array : List α) (a b : Nat) : List α :=
  let temp := array.getD a d
  let array := array.set a (array.getD b d)
  array.set b temp

/-- Body of the inner loop of `bubbleSort`, comparing elements by `key`. -/
def bubbleStep (key : α → Int) (d : α) (size : Nat) (s : Run α) (j : Nat) : Run α :=
  if key (s.array.getD j d) > key (s.array.getD (j + 1) d) then
    let array := swap d s.array j (j + 1)
    ⟨array, s.events ++ [⟨array, size, j, j + 1⟩]⟩
  else s

/-- Inner loop of `bubbleSort`, comparing elements by `key`. -/
def bubblePass (key : α → Int) (d : α) (size : Nat) (s : Run α) (i : Nat) : Run α :=
  (List.range (size - i - 1)).foldl (bubbleStep key d size) s

/-- The function `bubbleSort`, comparing elements by `key`. -/
def bubbleSort (key : α → Int) (d : α) (array : List α) (size : Nat) : Run α :=
  (List.range (size - 1)).foldl (bubblePass key d size) ⟨array, []⟩

/-- First loop of `merge`, comparing elements by `key`. -/
def mergeLoop1 (key : α → Int) (d : α) (L R : List α) (n1 n2 : Nat)
    (s : MergeState α) : MergeState α :=
  if _h : s.i < n1 ∧ s.j < n2 then
    if key (L.getD s.i d) ≤ key (R.getD s.j d) then
      let array := s.array.set s.k (L.getD s.i d)
      mergeLoop1 key d L R n1 n2
        ⟨array, s.events ++ [⟨array, ARRAY_SIZE, s.k, -1⟩], s.i + 1, s.j, s.k + 1⟩
    else
      let array := s.array.set s.k (R.getD s.j d)
      mergeLoop1 key d L R n1 n2
        ⟨array, s.events ++ [⟨array, ARRAY_SIZE, s.k, -1⟩], s.i, s.j + 1, s.k + 1⟩
  else s
termination_by (n1 - s.i) + (n2 - s.j)
decreasing_by all_goals simp_wf; all_goals omega

/-- Second loop of `merge` over any element type. -/
def mergeLoop2 (d : α) (L : List α) (n1 : Nat) (s : MergeState α) : MergeState α :=
  if _h : s.i < n1 then
    let array := s.array.set s.k (L.getD s.i d)
    mergeLoop2 d L n1
      ⟨array, s.events ++ [⟨array, ARRAY_SIZE, s.k, -1⟩], s.i + 1, s.j, s.k + 1⟩
  else s
termination_by n1 - s.i
decreasing_by all_goals simp_wf; all_goals omega

/-- Third loop of `merge` over any element type. -/
def mergeLoop3 (d : α) (R : List α) (n2 : Nat) (s : MergeState α) : MergeState α :=
  if _h : s.j < n2 then
    let array := s.array.set s.k (R.getD s.j d)
    mergeLoop3 d R n2
      ⟨array, s.events ++ [⟨array, ARRAY_SIZE, s.k, -1⟩], s.i, s.j + 1, s.k + 1⟩
  else s
termination_by n2 - s.j
decreasing_by all_goals simp_wf; all_goals omega

/-- The function `merge`, comparing elements by `key`. -/
def merge (key : α → Int) (d : α) (array : List α) (left mid right : Nat) : Run α :=
  let n1 := mid + 1 - left
  let n2 := right - mid
  let L := (List.range n1).map fun i => array.getD (left + i) d
  let R := (List.range n2).map fun i => array.getD (mid + 1 + i) d
  let s := mergeLoop1 key d L R n1 n2 ⟨array, [], 0, 0, left⟩
  let s := mergeLoop2 d L n1 s
  let s := mergeLoop3 d R n2 s
  ⟨s.array, s.events⟩

/-- The function `mergeSort`, comparing elements by `key`. -/
def mergeSort (key : α → Int) (d : α) (array : List α) (left right : Nat) : Run α :=
  if _h : left < right then
    let mid := left + (right - left) / 2
    let r1 := mergeSort key d array left mid
    let r2 := mergeSort key d r1.array (mid + 1) right
    let r3 := merge key d r2.array left mid right
    ⟨r3.array, r1.events ++ r2.events ++ r3.events⟩
  else ⟨array, []⟩
termination_by right - left
decreasing_by all_goals simp_wf; all_goals omega

end Keyed

/-! ## Vocabulary of the proofs about the keyed code -/

namespace Keyed

variable {α : Type}

/-- Cells from `m` on are in their final place: each is at least as large as
every cell before it. -/
def SettledFrom (key : α → Int) (d : α) (arr : List α) (m : Nat) : Prop :=
  ∀ p q, p < q → m ≤ q → q < arr.length → key (arr.getD p d) ≤ key (arr.getD q d)

/-- Event `e` is an exchange of two neighbouring cells of `prev`, the left one
having the strictly larger key. -/
def IsSwapEvent (key : α → Int) (d : α) (size : Nat) (prev : List α) (e : StepEvent α) : Prop :=
  ∃ j : Nat, j + 1 < size ∧ e.idx1 = j ∧ e.idx2 = j + 1 ∧ e.size = size ∧
    key (prev.getD j d) > key (prev.getD (j + 1) d) ∧ e.array = swap d prev j (j + 1)

/-- Merge of two lists, taking from the left list on ties. -/
def mergeList (key : α → Int) : List α → List α → List α
  | [], r => r
  | x :: l, [] => x :: l
  | x :: l, y :: r =>
    if key x ≤ key y then x :: mergeList key l (y :: r) else y :: mergeList key (x :: l) r

/-- Array after writing the values `vs` into the cells `k`, `k + 1`, ... -/
def writeAll : List α → Nat → List α → List α
  | arr, _, [] => arr
  | arr, k, v :: vs => writeAll (arr.set k v) (k + 1) vs

/-- Events of writing the values `vs` into the cells `k`, `k + 1`, ..., one
callback after each write. -/
def writeEvents : List α → Nat → List α → List (StepEvent α)
  | _, _, [] => []
  | arr, k, v :: vs => ⟨arr.set k v, ARRAY_SIZE, k, -1⟩ :: writeEvents (arr.set k v) (k + 1) vs

/-- The buffer `L` of `merge`: the cells `left .. mid`. -/
def bufL (d : α) (array : List α) (left mid : Nat) : List α :=
  (List.range (mid + 1 - left)).map fun i => array.getD (left + i) d

/-- The buffer `R` of `merge`: the cells `mid + 1 .. right`. -/
def bufR (d : α) (array : List α) (mid right : Nat) : List α :=
  (List.range (right - mid)).map fun i => array.getD (mid + 1 + i) d

/-- An event with every array cell sent through `f`. -/
def mapEvent {β : Type} (f : α → β) (e : StepEvent α) : StepEvent β :=
  ⟨e.array.map f, e.size, e.idx1, e.idx2⟩

/-- A run with every array cell sent through `f`. -/
def mapRun {β : Type} (f : α → β) (r : Run α) : Run β :=
  ⟨r.array.map f, r.events.map (mapEvent f)⟩

/-- The state of `merge` with every array cell sent through `f`. -/
def mapState {β : Type} (f : α → β) (s : MergeState α) : MergeState β :=
  ⟨s.array.map f, s.events.map (mapEvent f), s.i, s.j, s.k⟩

end Keyed

/-! ## Vocabulary of the statements -/

/-- Array contents after the first `t` events of a run that started from `a`:
`a` itself for `t = 0`, otherwise the snapshot carried by event `t - 1`. -/
def stateAt {α : Type} (a : List α) (evs : List (StepEvent α)) : Nat → List α
  | 0 => a
  | t + 1 => match evs[t]? with
    | some e => e.array
    | none => a

/-- The inclusive index range `left..right` of an array, as a list. -/
def slice {α : Type} (a : List α) (left right : Nat) : List α :=
  (a.drop left).take (right + 1 - left)

/-- Each value paired with its position in the array. -/
def tag (a : List Int) : List (Int × Nat) :=
  a.zip (List.range a.length)


/-! ## The recursion of `mergeSort`, counted and bounded -/

/-- The split point computed by `mergeSort` (`sort.c:153`):
`mid = left + (right - left) / 2`. -/
def midpoint (left right : Nat) : Nat :=
  left + (right - left) / 2

/-- The function `mergeSort` (`sort.c:151-160`) run with a bound on the depth
of the recursion: `none` when the bound is used up before the call returns. -/
def mergeSortFuel : Nat → List Int → Nat → Nat → Option (Run Int)
  | 0, _, _, _ => none
  | fuel + 1, array, left, right =>
    if left < right then
      let mid := left + (right - left) / 2
      match mergeSortFuel fuel array left mid with
      | none => none
      | some r1 =>
        match mergeSortFuel fuel r1.array (mid + 1) right with
        | none => none
        | some r2 =>
          let r3 := merge r2.array left mid right
          some ⟨r3.array, r1.events ++ r2.events ++ r3.events⟩
    else some ⟨array, []⟩

/-- The integer arguments of a callback invocation, without the array:
`(size, idx1, idx2)`. -/
def eventShape {α : Type} (e : StepEvent α) : Int × Int × Int :=
  (e.size, e.idx1, e.idx2)

/-- The number `W(n)` of writes of a merge sort of `n` cells, by the recurrence
of the recursion of `mergeSort`: the left half has `(n + 1) / 2` cells, the
right half `n / 2`, and the merge writes `n` cells. -/
def mergeWrites (n : Nat) : Nat :=
  if _h : 2 ≤ n then mergeWrites ((n + 1) / 2) + mergeWrites (n / 2) + n else 0
termination_by n
decreasing_by all_goals simp_wf; all_goals omega

/-! ## Inversions -/

/-- Number of inversions of an array: the number of pairs of indices `i < j`
with `a[i] > a[j]`. -/
def inversions (a : List Int) : Nat :=
  ((List.range a.length).map fun i =>
    ((List.range a.length).filter fun j => i < j ∧ a.getD i 0 > a.getD j 0).length).sum

/-! ## The bar chart (`drawArray`) -/

/-- The constant `SCREEN_WIDTH` (`sort.c:8`). -/
def SCREEN_WIDTH : Int := 1920

/-- The constant `SCREEN_HEIGHT` (`sort.c:9`). -/
def SCREEN_HEIGHT : Int := 1080

/-- An `SDL_Rect`: top-left corner `x`, `y`, width `w`, height `h`. -/
structure Rect where
  x : Int
  y : Int
  w : Int
  h : Int
deriving DecidableEq

/-- The value `barWidth` of `drawArray` (`sort.c:27`): `SCREEN_WIDTH / size`,
with the division of C, which rounds towards zero. -/
def barWidth (size : Int) : Int :=
  SCREEN_WIDTH.tdiv size

/-- The value `barHeight` of `drawArray` for cell `i` (`sort.c:29`):
`(array[i] * SCREEN_HEIGHT) / size`. -/
def barHeight (array : List Int) (size : Int) (i : Nat) : Int :=
  (array.getD i 0 * SCREEN_HEIGHT).tdiv size

/-- The rectangle `bar` of `drawArray` for cell `i` (`sort.c:30`). -/
def bar (array : List Int) (size : Int) (i : Nat) : Rect :=
  ⟨i * barWidth size, SCREEN_HEIGHT - barHeight array size i, barWidth size,
    barHeight array size i⟩

/-- The draw colour chosen for cell `i` (`sort.c:31-35`), as red, green, blue,
alpha: red when `i` is one of the two highlighted indices, white otherwise. -/
def barColour (i : Nat) (highlight1 highlight2 : Int) : Nat × Nat × Nat × Nat :=
  if (i : Int) = highlight1 ∨ (i : Int) = highlight2 then (255, 0, 0, 255)
  else (255, 255, 255, 255)

/-- The function `drawArray` (`sort.c:23-40`): the rectangles filled by the
loop `for (i = 0; i < size; ++i)`, in order, each with its colour. -/
def drawArray (array : List Int) (size : Int) (highlight1 highlight2 : Int) :
    List (Rect × (Nat × Nat × Nat × Nat)) :=
  (List.range size.toNat).map fun i => (bar array size i, barColour i highlight1 highlight2)

/-! ## Lists as arrays -/

section ArrayLemmas

variable {α : Type}

theorem getD_set_eq (d : α) (l : List α) (i : Nat) (v : α) (h : i < l.length) :
    (l.set i v).getD i d = v := by
  simp [List.getD_eq_getElem?_getD, List.getElem?_set, h]

theorem getD_set_ne (d : α) (l : List α) {i j : Nat} (v : α) (h : i ≠ j) :
    (l.set i v).getD j d = l.getD j d := by
  simp [List.getD_eq_getElem?_getD, List.getElem?_set, h]

theorem getD_of_lt (d : α) (l : List α) (i : Nat) (h : i < l.length) :
    l.getD i d = l[i] := by
  simp [List.getD_eq_getElem?_getD, h]

theorem foldl_invariant {σ ι : Type} (Inv : σ → Prop) (f : σ → ι → σ) :
    ∀ (l : List ι) (s : σ), (∀ x ∈ l, ∀ s, Inv s → Inv (f s x)) → Inv s →
      Inv (l.foldl f s)
  | [], _, _, h => h
  | x :: l, s, hf, h =>
    foldl_invariant Inv f l (f s x) (fun y hy => hf y (List.mem_cons_of_mem _ hy))
      (hf x (List.mem_cons_self _ _) s h)

end ArrayLemmas

namespace Keyed

variable {α : Type}

theorem swap_length (d : α) (l : List α) (a b : Nat) : (swap d l a b).length = l.length := by
  simp [swap]

theorem getD_swap_left (d : α) (l : List α) (j : Nat) (h : j + 1 < l.length) :
    (swap d l j (j + 1)).getD j d = l.getD (j + 1) d := by
  unfold swap
  rw [getD_set_ne d _ _ (by omega), getD_set_eq d _ _ _ (by omega)]

theorem getD_swap_right (d : α) (l : List α) (j : Nat) (h : j + 1 < l.length) :
    (swap d l j (j + 1)).getD (j + 1) d = l.getD j d := by
  unfold swap
  rw [getD_set_eq d _ _ _ (by simpa using h)]

theorem getD_swap_other (d : α) (l : List α) (j p : Nat) (h1 : p ≠ j) (h2 : p ≠ j + 1) :
    (swap d l j (j + 1)).getD p d = l.getD p d := by
  unfold swap
  rw [getD_set_ne d _ _ (by omega), getD_set_ne d _ _ (by omega)]

/-- Exchanging two neighbouring cells, seen on the list. -/
theorem swap_adjacent (d : α) : ∀ (l : List α) (j : Nat), j + 1 < l.length →
    ∃ pre x y post, l = pre ++ x :: y :: post ∧ swap d l j (j + 1) = pre ++ y :: x :: post ∧
      l.getD j d = x ∧ l.getD (j + 1) d = y
  | [], _, h => by simp at h
  | [_], _, h => by simp at h
  | x :: y :: l, 0, _ => ⟨[], x, y, l, by simp [swap]⟩
  | x :: y :: l, j + 1, h => by
    obtain ⟨pre, u, v, post, h1, h2, h3, h4⟩ := swap_adjacent d (y :: l) j (by simpa using h)
    refine ⟨x :: pre, u, v, post, by simp [h1], ?_, by simpa using h3, by simpa using h4⟩
    have : swap d (x :: y :: l) (j + 1) (j + 1 + 1) = x :: swap d (y :: l) j (j + 1) := by
      simp [swap]
    rw [this, h2]; rfl

end Keyed


namespace Keyed

variable {α : Type}

/-! ### Bubble sort: what one step does -/

theorem bubbleStep_length (key : α → Int) (d : α) (size : Nat) (s : Run α) (j : Nat) :
    (bubbleStep key d size s j).array.length = s.array.length := by
  unfold bubbleStep
  split
  · simp [swap_length]
  · rfl

theorem bubbleStep_getD_other (key : α → Int) (d : α) (size : Nat) (s : Run α) (j p : Nat)
    (h1 : p ≠ j) (h2 : p ≠ j + 1) :
    (bubbleStep key d size s j).array.getD p d = s.array.getD p d := by
  unfold bubbleStep
  split
  · exact getD_swap_other d _ _ _ h1 h2
  · rfl

/-- After the step at `j`, cell `j + 1` holds the larger and cell `j` the
smaller of the two cells compared. -/
theorem bubbleStep_pair (key : α → Int) (d : α) (size : Nat) (s : Run α) (j : Nat)
    (h : j + 1 < s.array.length) :
    key ((bubbleStep key d size s j).array.getD j d)
        ≤ key ((bubbleStep key d size s j).array.getD (j + 1) d) ∧
      (((bubbleStep key d size s j).array.getD j d = s.array.getD j d ∧
          (bubbleStep key d size s j).array.getD (j + 1) d = s.array.getD (j + 1) d) ∨
        ((bubbleStep key d size s j).array.getD j d = s.array.getD (j + 1) d ∧
          (bubbleStep key d size s j).array.getD (j + 1) d = s.array.getD j d)) := by
  unfold bubbleStep
  split
  · rename_i hgt
    have e1 := getD_swap_left d _ _ h
    have e2 := getD_swap_right d _ _ h
    refine ⟨?_, Or.inr ⟨e1, e2⟩⟩
    show key ((swap d s.array j (j + 1)).getD j d) ≤ key ((swap d s.array j (j + 1)).getD (j + 1) d)
    rw [e1, e2]; omega
  · rename_i hgt
    exact ⟨by omega, Or.inl ⟨rfl, rfl⟩⟩

theorem bubbleStep_settled (key : α → Int) (d : α) (size : Nat) (s : Run α) (j m : Nat)
    (hj : j + 1 < m) (hm : m ≤ s.array.length) (h : SettledFrom key d s.array m) :
    SettledFrom key d (bubbleStep key d size s j).array m := by
  intro p q hpq hmq hq
  rw [bubbleStep_length] at hq
  rw [bubbleStep_getD_other key d size s j q (by omega) (by omega)]
  have hjl : j + 1 < s.array.length := by omega
  by_cases hp1 : p = j
  · subst hp1
    rcases (bubbleStep_pair key d size s p hjl).2 with ⟨e, _⟩ | ⟨e, _⟩
    · rw [e]; exact h _ _ hpq hmq hq
    · rw [e]; exact h _ _ (by omega) hmq hq
  · by_cases hp2 : p = j + 1
    · subst hp2
      rcases (bubbleStep_pair key d size s j hjl).2 with ⟨_, e⟩ | ⟨_, e⟩
      · rw [e]; exact h _ _ hpq hmq hq
      · rw [e]; exact h _ _ (by omega) hmq hq
    · rw [bubbleStep_getD_other key d size s j p hp1 hp2]
      exact h _ _ hpq hmq hq

/-- State of the inner loop after its first `t` iterations. -/
theorem bubblePass_partial (key : α → Int) (d : α) (size : Nat) (s : Run α) (m : Nat)
    (hm : m ≤ s.array.length) (h : SettledFrom key d s.array m) :
    ∀ t, t + 1 ≤ m →
      ((List.range t).foldl (bubbleStep key d size) s).array.length = s.array.length ∧
      SettledFrom key d ((List.range t).foldl (bubbleStep key d size) s).array m ∧
      ∀ p, p ≤ t → key (((List.range t).foldl (bubbleStep key d size) s).array.getD p d)
        ≤ key (((List.range t).foldl (bubbleStep key d size) s).array.getD t d)
  | 0, _ => ⟨rfl, h, fun p hp => by
      have : p = 0 := by omega
      subst this; exact le_refl _⟩
  | t + 1, ht => by
    obtain ⟨hl, hs, hmax⟩ := bubblePass_partial key d size s m hm h t (by omega)
    rw [List.range_succ, List.foldl_append]
    simp only [List.foldl_cons, List.foldl_nil]
    generalize (List.range t).foldl (bubbleStep key d size) s = s1 at hl hs hmax
    have hjl : t + 1 < s1.array.length := by omega
    refine ⟨by rw [bubbleStep_length, hl], bubbleStep_settled key d size s1 t m (by omega) (by omega) hs, ?_⟩
    intro p hp
    obtain ⟨hle, hcase⟩ := bubbleStep_pair key d size s1 t hjl
    by_cases hp2 : p = t + 1
    · subst hp2; exact le_refl _
    · by_cases hp1 : p = t
      · subst hp1; exact hle
      · rw [bubbleStep_getD_other key d size s1 t p hp1 hp2]
        have := hmax p (by omega)
        rcases hcase with ⟨e1, e2⟩ | ⟨e1, e2⟩
        · rw [e2]
          have h2 := hle
          rw [e1, e2] at h2
          omega
        · rw [e2]; exact this

/-- One pass of the inner loop settles one more cell. -/
theorem bubblePass_settled (key : α → Int) (d : α) (s : Run α) (i : Nat)
    (hi : i + 1 ≤ s.array.length)
    (h : SettledFrom key d s.array (s.array.length - i)) :
    (bubblePass key d s.array.length s i).array.length = s.array.length ∧
      SettledFrom key d (bubblePass key d s.array.length s i).array (s.array.length - i - 1) := by
  obtain ⟨hl, hs, hmax⟩ := bubblePass_partial key d s.array.length s (s.array.length - i)
    (by omega) h (s.array.length - i - 1) (by omega)
  unfold bubblePass
  refine ⟨hl, ?_⟩
  intro p q hpq hmq hq
  by_cases hq2 : s.array.length - i ≤ q
  · exact hs p q hpq hq2 hq
  · have : q = s.array.length - i - 1 := by omega
    subst this
    exact hmax p (by omega)

/-- State of the outer loop after its first `k` passes. -/
theorem bubbleSort_partial (key : α → Int) (d : α) (a : List α) :
    ∀ k, k + 1 ≤ a.length →
      ((List.range k).foldl (bubblePass key d a.length) ⟨a, []⟩).array.length = a.length ∧
      SettledFrom key d ((List.range k).foldl (bubblePass key d a.length) ⟨a, []⟩).array
        (a.length - k)
  | 0, _ => ⟨rfl, fun p q _ hmq hq => by simp at hmq hq; omega⟩
  | k + 1, hk => by
    obtain ⟨hl, hs⟩ := bubbleSort_partial key d a k (by omega)
    rw [List.range_succ, List.foldl_append]
    simp only [List.foldl_cons, List.foldl_nil]
    generalize (List.range k).foldl (bubblePass key d a.length) ⟨a, []⟩ = s1 at hl hs
    rw [← hl] at hs ⊢
    have := bubblePass_settled key d s1 k (by omega) hs
    exact ⟨this.1, by simpa [Nat.sub_sub] using this.2⟩

/-- Bubble sort leaves the keys in non-decreasing order. -/
theorem bubbleSort_sorted (key : α → Int) (d : α) (a : List α) (p q : Nat)
    (hpq : p < q) (hq : q < a.length) :
    (bubbleSort key d a a.length).array.length = a.length ∧
    key ((bubbleSort key d a a.length).array.getD p d)
      ≤ key ((bubbleSort key d a a.length).array.getD q d) := by
  obtain ⟨hl, hs⟩ := bubbleSort_partial key d a (a.length - 1) (by omega)
  unfold bubbleSort
  exact ⟨hl, hs p q hpq (by omega) (by omega)⟩


/-! ### Bubble sort: what is preserved -/

theorem bubbleSort_invariant (key : α → Int) (d : α) (a : List α) (size : Nat)
    (Inv : Run α → Prop) (h0 : Inv ⟨a, []⟩)
    (hstep : ∀ s j, j + 1 < size → Inv s → Inv (bubbleStep key d size s j)) :
    Inv (bubbleSort key d a size) := by
  unfold bubbleSort
  refine foldl_invariant Inv _ _ _ ?_ h0
  intro i _ s hs
  unfold bubblePass
  refine foldl_invariant Inv _ _ _ ?_ hs
  intro j hj s hs
  exact hstep s j (by have := List.mem_range.1 hj; omega) hs

/-- The two outcomes of one step: nothing happens, or the two cells are
exchanged and one event carrying the new array is emitted. -/
theorem bubbleStep_cases (key : α → Int) (d : α) (size : Nat) (s : Run α) (j : Nat) :
    (key (s.array.getD j d) ≤ key (s.array.getD (j + 1) d) ∧ bubbleStep key d size s j = s) ∨
    (key (s.array.getD j d) > key (s.array.getD (j + 1) d) ∧
      bubbleStep key d size s j =
        ⟨swap d s.array j (j + 1),
          s.events ++ [⟨swap d s.array j (j + 1), size, j, j + 1⟩]⟩) := by
  unfold bubbleStep
  split
  · rename_i h; exact Or.inr ⟨h, rfl⟩
  · rename_i h; exact Or.inl ⟨by omega, rfl⟩

theorem swap_adjacent_perm (d : α) (l : List α) (j : Nat) (h : j + 1 < l.length) :
    (swap d l j (j + 1)).Perm l := by
  obtain ⟨pre, x, y, post, h1, h2, _, _⟩ := swap_adjacent d l j h
  rw [h2, h1]
  exact List.Perm.append_left _ (List.Perm.swap _ _ _)

theorem swap_adjacent_filter (key : α → Int) (d : α) (l : List α) (j : Nat)
    (h : j + 1 < l.length) (hne : key (l.getD j d) ≠ key (l.getD (j + 1) d)) (v : Int) :
    (swap d l j (j + 1)).filter (fun x => key x = v) = l.filter (fun x => key x = v) := by
  obtain ⟨pre, x, y, post, h1, h2, h3, h4⟩ := swap_adjacent d l j h
  rw [h3, h4] at hne
  rw [h2, h1]
  simp only [List.filter_append, List.filter_cons]
  by_cases hx : key x = v
  · have hy : ¬ key y = v := fun hy => hne (hx.trans hy.symm)
    simp [hx, hy]
  · simp [hx]

theorem stateAt_append_of_le (a : List α) (evs : List (StepEvent α)) (e : StepEvent α) :
    ∀ t, t ≤ evs.length → stateAt a (evs ++ [e]) t = stateAt a evs t
  | 0, _ => rfl
  | t + 1, h => by
    have ht : t < evs.length := h
    simp [stateAt, List.getElem?_append_left ht]

theorem stateAt_append_last (a : List α) (evs : List (StepEvent α)) (e : StepEvent α) :
    stateAt a (evs ++ [e]) (evs.length + 1) = e.array := by
  simp [stateAt]

theorem bubbleSort_events (key : α → Int) (d : α) (a : List α) (size : Nat) :
    (bubbleSort key d a size).array
        = stateAt a (bubbleSort key d a size).events (bubbleSort key d a size).events.length ∧
      ∀ t (ht : t < (bubbleSort key d a size).events.length),
        IsSwapEvent key d size (stateAt a (bubbleSort key d a size).events t)
          ((bubbleSort key d a size).events.get ⟨t, ht⟩) := by
  refine bubbleSort_invariant key d a size
    (fun s => s.array = stateAt a s.events s.events.length ∧
      ∀ t (ht : t < s.events.length),
        IsSwapEvent key d size (stateAt a s.events t) (s.events.get ⟨t, ht⟩))
    ⟨rfl, fun t ht => by simp at ht⟩ ?_
  intro s j hj ⟨h1, h2⟩
  rcases bubbleStep_cases key d size s j with ⟨_, e⟩ | ⟨hgt, e⟩
  · rw [e]; exact ⟨h1, h2⟩
  · rw [e]
    refine ⟨by simp [stateAt_append_last], ?_⟩
    intro t ht
    simp only [List.length_append, List.length_singleton] at ht
    rw [stateAt_append_of_le a s.events _ t (by omega)]
    by_cases hlt : t < s.events.length
    · have := h2 t hlt
      simpa [List.getElem_append_left hlt] using this
    · have ht2 : t = s.events.length := by omega
      subst ht2
      rw [← h1]
      simp only [List.get_eq_getElem, List.getElem_concat_length]
      exact ⟨j, hj, rfl, rfl, rfl, hgt, rfl⟩

theorem bubbleSort_preserves (key : α → Int) (d : α) (a : List α) :
    (bubbleSort key d a a.length).array.length = a.length ∧
      (bubbleSort key d a a.length).array.Perm a ∧
      (∀ v : Int, (bubbleSort key d a a.length).array.filter (fun x => key x = v)
        = a.filter (fun x => key x = v)) ∧
      ∀ e ∈ (bubbleSort key d a a.length).events, e.array.Perm a := by
  refine bubbleSort_invariant key d a a.length
    (fun s => s.array.length = a.length ∧ s.array.Perm a ∧
      (∀ v : Int, s.array.filter (fun x => key x = v) = a.filter (fun x => key x = v)) ∧
      ∀ e ∈ s.events, e.array.Perm a)
    ⟨rfl, List.Perm.refl _, fun _ => rfl, fun e he => by simp at he⟩ ?_
  intro s j hj ⟨hl, hp, hf, he⟩
  rcases bubbleStep_cases key d a.length s j with ⟨_, e⟩ | ⟨hgt, e⟩
  · rw [e]; exact ⟨hl, hp, hf, he⟩
  · rw [e]
    have hjl : j + 1 < s.array.length := by omega
    have hp2 : (swap d s.array j (j + 1)).Perm a := (swap_adjacent_perm d _ j hjl).trans hp
    refine ⟨by simp [swap_length, hl], hp2, ?_, ?_⟩
    · intro v
      show (swap d s.array j (j + 1)).filter _ = _
      rw [swap_adjacent_filter key d _ j hjl (by omega) v]
      exact hf v
    · intro e2 he2
      rcases List.mem_append.1 he2 with h | h
      · exact he e2 h
      · rw [List.mem_singleton.1 h]; exact hp2


/-! ### Merge: the three loops write the merged list, cell by cell -/

theorem mergeList_nil_right (key : α → Int) (l : List α) : mergeList key l [] = l := by
  cases l <;> simp [mergeList]

theorem writeAll_append : ∀ (xs : List α) (arr : List α) (k : Nat) (ys : List α),
    writeAll arr k (xs ++ ys) = writeAll (writeAll arr k xs) (k + xs.length) ys
  | [], _, _, _ => rfl
  | x :: xs, arr, k, ys => by
    rw [List.cons_append]
    simp only [writeAll, List.length_cons]
    rw [writeAll_append xs]
    congr 1; omega

theorem writeEvents_append : ∀ (xs : List α) (arr : List α) (k : Nat) (ys : List α),
    writeEvents arr k (xs ++ ys)
      = writeEvents arr k xs ++ writeEvents (writeAll arr k xs) (k + xs.length) ys
  | [], _, _, _ => rfl
  | x :: xs, arr, k, ys => by
    rw [List.cons_append]
    simp only [writeEvents, writeAll, List.length_cons, List.cons_append]
    rw [writeEvents_append xs]
    congr 3; omega

theorem drop_eq_getD_cons (d : α) (l : List α) (i : Nat) (h : i < l.length) :
    l.drop i = l.getD i d :: l.drop (i + 1) := by
  rw [getD_of_lt d l i h]
  exact List.drop_eq_getElem_cons h

theorem mergeLoop2_spec (d : α) (L : List α) :
    ∀ (n : Nat) (s : MergeState α), L.length - s.i = n → s.i ≤ L.length →
      mergeLoop2 d L L.length s =
        ⟨writeAll s.array s.k (L.drop s.i), s.events ++ writeEvents s.array s.k (L.drop s.i),
          L.length, s.j, s.k + (L.length - s.i)⟩
  | 0, s, hn, hi => by
    have h1 : ¬ s.i < L.length := by omega
    have h2 : s.i = L.length := by omega
    rw [mergeLoop2, dif_neg h1]
    obtain ⟨arr, ev, i, j, k⟩ := s
    simp only at h2
    subst h2
    simp [writeAll, writeEvents]
  | n + 1, s, hn, hi => by
    have h1 : s.i < L.length := by omega
    rw [mergeLoop2, dif_pos h1]
    simp only []
    rw [mergeLoop2_spec d L n _ (by simp; omega) (by simp; omega)]
    rw [drop_eq_getD_cons d L s.i h1]
    simp only [writeAll, writeEvents, List.append_assoc, List.singleton_append]
    congr 1
    omega

theorem mergeLoop3_spec (d : α) (R : List α) :
    ∀ (n : Nat) (s : MergeState α), R.length - s.j = n → s.j ≤ R.length →
      mergeLoop3 d R R.length s =
        ⟨writeAll s.array s.k (R.drop s.j), s.events ++ writeEvents s.array s.k (R.drop s.j),
          s.i, R.length, s.k + (R.length - s.j)⟩
  | 0, s, hn, hi => by
    have h1 : ¬ s.j < R.length := by omega
    have h2 : s.j = R.length := by omega
    rw [mergeLoop3, dif_neg h1]
    obtain ⟨arr, ev, i, j, k⟩ := s
    simp only at h2
    subst h2
    simp [writeAll, writeEvents]
  | n + 1, s, hn, hi => by
    have h1 : s.j < R.length := by omega
    rw [mergeLoop3, dif_pos h1]
    simp only []
    rw [mergeLoop3_spec d R n _ (by simp; omega) (by simp; omega)]
    rw [drop_eq_getD_cons d R s.j h1]
    simp only [writeAll, writeEvents, List.append_assoc, List.singleton_append]
    congr 1
    omega

/-- The two draining loops, run after the comparison loop has stopped. -/
theorem mergeDrain_spec (key : α → Int) (d : α) (L R : List α) (s : MergeState α)
    (hi : s.i ≤ L.length) (hj : s.j ≤ R.length) (hc : ¬ (s.i < L.length ∧ s.j < R.length)) :
    (mergeLoop3 d R R.length (mergeLoop2 d L L.length s)).array
        = writeAll s.array s.k (mergeList key (L.drop s.i) (R.drop s.j)) ∧
      (mergeLoop3 d R R.length (mergeLoop2 d L L.length s)).events
        = s.events ++ writeEvents s.array s.k (mergeList key (L.drop s.i) (R.drop s.j)) := by
  rw [mergeLoop2_spec d L _ s rfl hi, mergeLoop3_spec d R _ _ rfl (by exact hj)]
  have hlen : (L.drop s.i).length = L.length - s.i := by simp
  have hm : mergeList key (L.drop s.i) (R.drop s.j) = L.drop s.i ++ R.drop s.j := by
    by_cases h : s.i < L.length
    · have : R.drop s.j = [] := List.drop_eq_nil_of_le (by omega)
      rw [this, mergeList_nil_right, List.append_nil]
    · have : L.drop s.i = [] := List.drop_eq_nil_of_le (by omega)
      rw [this]; simp [mergeList]
  rw [hm, writeAll_append, writeEvents_append, hlen]
  simp [List.append_assoc]

theorem mergeLoops_spec (key : α → Int) (d : α) (L R : List α) :
    ∀ (n : Nat) (s : MergeState α), (L.length - s.i) + (R.length - s.j) = n →
      s.i ≤ L.length → s.j ≤ R.length →
      (mergeLoop3 d R R.length (mergeLoop2 d L L.length
          (mergeLoop1 key d L R L.length R.length s))).array
        = writeAll s.array s.k (mergeList key (L.drop s.i) (R.drop s.j)) ∧
      (mergeLoop3 d R R.length (mergeLoop2 d L L.length
          (mergeLoop1 key d L R L.length R.length s))).events
        = s.events ++ writeEvents s.array s.k (mergeList key (L.drop s.i) (R.drop s.j))
  | n, s, hn, hi, hj => by
    by_cases hc : s.i < L.length ∧ s.j < R.length
    · rw [mergeLoop1, dif_pos hc]
      rw [drop_eq_getD_cons d L s.i hc.1, drop_eq_getD_cons d R s.j hc.2]
      cases n with
      | zero => omega
      | succ n =>
        by_cases hk : key (L.getD s.i d) ≤ key (R.getD s.j d)
        · rw [if_pos hk]
          simp only []
          have ih := mergeLoops_spec key d L R n
            ⟨s.array.set s.k (L.getD s.i d),
              s.events ++ [⟨s.array.set s.k (L.getD s.i d), ARRAY_SIZE, s.k, -1⟩],
              s.i + 1, s.j, s.k + 1⟩ (by simp; omega) (by simp; omega) hj
          rw [ih.1, ih.2]
          simp only [mergeList, if_pos hk, writeAll, writeEvents]
          rw [drop_eq_getD_cons d R s.j hc.2]
          simp
        · rw [if_neg hk]
          simp only []
          have ih := mergeLoops_spec key d L R n
            ⟨s.array.set s.k (R.getD s.j d),
              s.events ++ [⟨s.array.set s.k (R.getD s.j d), ARRAY_SIZE, s.k, -1⟩],
              s.i, s.j + 1, s.k + 1⟩ (by simp; omega) hi (by simp; omega)
          rw [ih.1, ih.2]
          simp only [mergeList, if_neg hk, writeAll, writeEvents]
          rw [drop_eq_getD_cons d L s.i hc.1]
          simp
    · rw [mergeLoop1, dif_neg hc]
      exact mergeDrain_spec key d L R s hi hj hc

/-- A call of `merge` writes the merge of its two buffers into the cells
`left`, `left + 1`, ..., with one event after each write. -/
theorem merge_spec (key : α → Int) (d : α) (array : List α) (left mid right : Nat) :
    merge key d array left mid right =
      ⟨writeAll array left (mergeList key (bufL d array left mid) (bufR d array mid right)),
        writeEvents array left (mergeList key (bufL d array left mid) (bufR d array mid right))⟩ := by
  have h1 : (bufL d array left mid).length = mid + 1 - left := by simp [bufL]
  have h2 : (bufR d array mid right).length = right - mid := by simp [bufR]
  have := mergeLoops_spec key d (bufL d array left mid) (bufR d array mid right) _
    ⟨array, [], 0, 0, left⟩ rfl (Nat.zero_le _) (Nat.zero_le _)
  rw [h1, h2] at this
  simp only [List.drop_zero, List.nil_append] at this
  unfold merge
  simp only []
  rw [← this.1, ← this.2]
  rfl


/-! ### Properties of the merged list -/

theorem mergeList_perm (key : α → Int) : ∀ (l r : List α), (mergeList key l r).Perm (l ++ r) := by
  intro l
  induction l with
  | nil => intro r; simp [mergeList]
  | cons x l ihl =>
    intro r
    induction r with
    | nil => simp [mergeList]
    | cons y r ihr =>
      simp only [mergeList]
      split
      · exact (ihl (y :: r)).cons x
      · refine (ihr.cons y).trans ?_
        exact (@List.perm_middle _ y (x :: l) r).symm

theorem mem_mergeList (key : α → Int) (l r : List α) (x : α) :
    x ∈ mergeList key l r ↔ x ∈ l ∨ x ∈ r := by
  rw [(mergeList_perm key l r).mem_iff, List.mem_append]

theorem mergeList_length (key : α → Int) (l r : List α) :
    (mergeList key l r).length = l.length + r.length := by
  rw [(mergeList_perm key l r).length_eq, List.length_append]

theorem mergeList_sorted (key : α → Int) : ∀ (l r : List α),
    l.Pairwise (fun x y => key x ≤ key y) → r.Pairwise (fun x y => key x ≤ key y) →
    (mergeList key l r).Pairwise (fun x y => key x ≤ key y) := by
  intro l
  induction l with
  | nil => intro r _ hr; simpa [mergeList] using hr
  | cons x l ihl =>
    intro r
    induction r with
    | nil => intro hl _; simpa [mergeList] using hl
    | cons y r ihr =>
      intro hl hr
      simp only [mergeList]
      have hl2 := List.pairwise_cons.1 hl
      have hr2 := List.pairwise_cons.1 hr
      split
      · rename_i hxy
        refine List.pairwise_cons.2 ⟨?_, ihl (y :: r) hl2.2 hr⟩
        intro z hz
        rcases (mem_mergeList key l (y :: r) z).1 hz with h | h
        · exact hl2.1 z h
        · rcases List.mem_cons.1 h with h | h
          · rw [h]; exact hxy
          · exact le_trans hxy (hr2.1 z h)
      · rename_i hxy
        refine List.pairwise_cons.2 ⟨?_, ihr hl hr2.2⟩
        intro z hz
        rcases (mem_mergeList key (x :: l) r z).1 hz with h | h
        · rcases List.mem_cons.1 h with h | h
          · rw [h]; omega
          · have := hl2.1 z h; omega
        · exact hr2.1 z h

/-- Elements with one and the same key come out of the merge in the order
"those of the left list, then those of the right list". -/
theorem mergeList_filter (key : α → Int) (v : Int) : ∀ (l r : List α),
    l.Pairwise (fun x y => key x ≤ key y) →
    (mergeList key l r).filter (fun x => key x = v)
      = l.filter (fun x => key x = v) ++ r.filter (fun x => key x = v) := by
  intro l
  induction l with
  | nil => intro r _; simp [mergeList]
  | cons x l ihl =>
    intro r
    induction r with
    | nil => intro _; simp [mergeList]
    | cons y r ihr =>
      intro hl
      simp only [mergeList]
      have hl2 := List.pairwise_cons.1 hl
      split
      · rw [List.filter_cons, ihl (y :: r) hl2.2]
        by_cases hx : key x = v <;> simp [hx, List.filter_cons]
      · rename_i hxy
        rw [List.filter_cons, ihr hl]
        by_cases hy : key y = v
        · have hnone : (x :: l).filter (fun z => key z = v) = [] := by
            rw [List.filter_eq_nil_iff]
            intro z hz
            have : key x ≤ key z := by
              rcases List.mem_cons.1 hz with h | h
              · rw [h]
              · exact hl2.1 z h
            simp; omega
          simp [hy, hnone]
        · simp [hy]

/-! ### Arrays cut into the part before a range, the range, and the part after -/

theorem getD_ctx (d : α) (P X T : List α) (i : Nat) (h : i < X.length) :
    (P ++ X ++ T).getD (P.length + i) d = X.getD i d := by
  rw [List.append_assoc]
  simp [List.getD_eq_getElem?_getD, List.getElem?_append_right, List.getElem?_append_left h]

theorem map_getD_range (d : α) : ∀ (X : List α),
    (List.range X.length).map (fun i => X.getD i d) = X
  | [] => rfl
  | x :: X => by
    rw [List.length_cons, List.range_succ_eq_map, List.map_cons, List.map_map]
    have := map_getD_range d X
    simp only [List.getD_cons_zero]
    congr 1

theorem bufL_ctx (d : α) (P X T : List α) (left mid : Nat) (hl : left = P.length)
    (hm : mid + 1 = left + X.length) (hX : 0 < X.length) :
    bufL d (P ++ X ++ T) left mid = X := by
  unfold bufL
  have : mid + 1 - left = X.length := by omega
  rw [this, hl]
  conv_rhs => rw [← map_getD_range d X]
  apply List.map_congr_left
  intro i hi
  exact getD_ctx d P X T i (List.mem_range.1 hi)

theorem bufR_ctx (d : α) (P X T : List α) (mid right : Nat) (hm : mid + 1 = P.length)
    (hr : right + 1 = P.length + X.length) : bufR d (P ++ X ++ T) mid right = X := by
  unfold bufR
  have : right - mid = X.length := by omega
  rw [this, hm]
  conv_rhs => rw [← map_getD_range d X]
  apply List.map_congr_left
  intro i hi
  exact getD_ctx d P X T i (List.mem_range.1 hi)

theorem set_ctx (P X T : List α) (x v : α) :
    (P ++ x :: X ++ T).set P.length v = (P ++ [v]) ++ X ++ T := by
  simp [List.set_append_right]

theorem writeAll_ctx : ∀ (vs P X T : List α), vs.length = X.length →
    writeAll (P ++ X ++ T) P.length vs = P ++ vs ++ T
  | [], P, X, T, h => by
    have : X = [] := List.length_eq_zero.1 h.symm
    simp [writeAll, this]
  | v :: vs, P, [], T, h => by simp at h
  | v :: vs, P, x :: X, T, h => by
    simp only [writeAll]
    rw [set_ctx]
    have := writeAll_ctx vs (P ++ [v]) X T (by simpa using h)
    simp only [List.length_append, List.length_singleton] at this
    rw [this]
    simp


theorem writeEvents_length : ∀ (vs arr : List α) (k : Nat),
    (writeEvents arr k vs).length = vs.length
  | [], _, _ => rfl
  | v :: vs, arr, k => by simp [writeEvents, writeEvents_length vs]

/-- Writing values that satisfy `Q` into an array whose cells satisfy `Q` shows
the callback only arrays of the same length whose cells satisfy `Q`. -/
theorem writeEvents_mem (Q : α → Prop) : ∀ (vs arr : List α) (k : Nat),
    (∀ v ∈ vs, Q v) → (∀ x ∈ arr, Q x) →
    ∀ e ∈ writeEvents arr k vs, e.array.length = arr.length ∧ ∀ x ∈ e.array, Q x
  | [], _, _, _, _, e, he => by simp [writeEvents] at he
  | v :: vs, arr, k, hvs, harr, e, he => by
    have hset : ∀ x ∈ arr.set k v, Q x := by
      intro x hx
      rcases List.mem_or_eq_of_mem_set hx with h | h
      · exact harr x h
      · rw [h]; exact hvs v (List.mem_cons_self _ _)
    simp only [writeEvents, List.mem_cons] at he
    rcases he with h | h
    · rw [h]; exact ⟨by simp, hset⟩
    · have := writeEvents_mem Q vs (arr.set k v) (k + 1)
        (fun w hw => hvs w (List.mem_cons_of_mem _ hw)) hset e h
      simpa using this

theorem writeEvents_getLast : ∀ (vs arr : List α) (k : Nat) (e : StepEvent α),
    (writeEvents arr k vs).getLast? = some e → e.array = writeAll arr k vs
  | [], _, _, e, h => by simp [writeEvents] at h
  | [v], arr, k, e, h => by
    simp [writeEvents] at h
    simp [writeAll, ← h]
  | v :: w :: vs, arr, k, e, h => by
    have := writeEvents_getLast (w :: vs) (arr.set k v) (k + 1) e
    rw [writeEvents] at h
    rw [writeAll]
    apply this
    rw [← h]
    simp [writeEvents, List.getLast?_cons_cons]

/-- A call of `merge` on an array cut as `P ++ X1 ++ X2 ++ T`, the two runs
being `X1` and `X2`. -/
theorem merge_ctx (key : α → Int) (d : α) (arr P X1 X2 T : List α) (left mid right : Nat)
    (harr : arr = P ++ X1 ++ X2 ++ T) (hl : left = P.length)
    (hm : mid + 1 = left + X1.length) (hr : right = mid + X2.length) (hX : 0 < X1.length) :
    merge key d arr left mid right =
      ⟨P ++ mergeList key X1 X2 ++ T, writeEvents arr left (mergeList key X1 X2)⟩ ∧
    writeAll arr left (mergeList key X1 X2) = P ++ mergeList key X1 X2 ++ T := by
  have h1 : bufL d arr left mid = X1 := by
    rw [harr, List.append_assoc (P ++ X1)]
    exact bufL_ctx d P X1 (X2 ++ T) left mid hl hm hX
  have h2 : bufR d arr mid right = X2 := by
    rw [harr, List.append_assoc P X1 X2]
    rw [show P ++ (X1 ++ X2) = (P ++ X1) ++ X2 by simp]
    exact bufR_ctx d (P ++ X1) X2 T mid right (by simp; omega) (by simp; omega)
  have h3 : writeAll arr left (mergeList key X1 X2) = P ++ mergeList key X1 X2 ++ T := by
    rw [harr, hl, List.append_assoc P X1 X2]
    exact writeAll_ctx _ P (X1 ++ X2) T (by simp [mergeList_length])
  refine ⟨?_, h3⟩
  rw [merge_spec, h1, h2, h3]

/-- What `mergeSort` does to the range it is given, the array being cut as
`P ++ X ++ T` with `X` the range `left..right`: the range is replaced by a
sorted rearrangement `S` of `X` that keeps elements of equal key in their
order; every callback sees an array of the same length made of values of the
input; the last callback sees the final array. -/
theorem mergeSort_ctx (key : α → Int) (d : α) :
    ∀ (n : Nat) (arr P X T : List α) (left right : Nat),
      arr = P ++ X ++ T → left = P.length → X.length = n → right + 1 = left + n →
      ∃ S, (mergeSort key d arr left right).array = P ++ S ++ T ∧ S.Perm X ∧
        S.Pairwise (fun x y => key x ≤ key y) ∧
        (∀ v : Int, S.filter (fun x => key x = v) = X.filter (fun x => key x = v)) ∧
        (∀ e ∈ (mergeSort key d arr left right).events,
          e.array.length = arr.length ∧ ∀ x ∈ e.array, x ∈ arr) ∧
        (∀ e, (mergeSort key d arr left right).events.getLast? = some e →
          e.array = (mergeSort key d arr left right).array) := by
  intro n
  induction n using Nat.strong_induction_on with
  | _ n ih =>
    intro arr P X T left right harr hl hX hr
    by_cases hlt : left < right
    · rw [mergeSort, dif_pos hlt]
      simp only []
      generalize hmid : left + (right - left) / 2 = mid
      have hX12 : X = X.take (mid + 1 - left) ++ X.drop (mid + 1 - left) :=
        (List.take_append_drop _ _).symm
      generalize hX1 : X.take (mid + 1 - left) = X1 at hX12
      generalize hX2 : X.drop (mid + 1 - left) = X2 at hX12
      have hn1 : X1.length = mid + 1 - left := by
        rw [← hX1, List.length_take]; omega
      have hn2 : X2.length = right - mid := by
        rw [← hX2, List.length_drop]; omega
      obtain ⟨S1, ha1, hp1, hs1, hf1, he1, _⟩ := ih X1.length (by omega) arr P X1 (X2 ++ T)
        left mid (by rw [harr, hX12]; simp) hl rfl (by omega)
      obtain ⟨S2, ha2, hp2, hs2, hf2, he2, _⟩ := ih X2.length (by omega)
        (mergeSort key d arr left mid).array (P ++ S1) X2 T (mid + 1) right
        (by rw [ha1]; simp) (by simp [hp1.length_eq]; omega) rfl (by omega)
      generalize mergeSort key d arr left mid = r1 at ha1 he1 ha2 he2 ⊢
      generalize mergeSort key d r1.array (mid + 1) right = r2 at ha2 he2 ⊢
      obtain ⟨hm, hw⟩ := merge_ctx key d r2.array P S1 S2 T left mid right
        (by rw [ha2]) hl (by rw [hp1.length_eq]; omega) (by rw [hp2.length_eq]; omega)
        (by rw [hp1.length_eq]; omega)
      rw [hm]
      have hperm1 : r1.array.Perm arr := by
        rw [ha1, harr, hX12]
        simp only [List.append_assoc]
        exact List.Perm.append_left _ (List.Perm.append_right _ hp1)
      have hperm2 : r2.array.Perm arr := by
        refine List.Perm.trans ?_ hperm1
        rw [ha2, ha1]
        simp only [List.append_assoc]
        exact List.Perm.append_left _ (List.Perm.append_left _ (List.Perm.append_right _ hp2))
      refine ⟨mergeList key S1 S2, rfl, ?_, mergeList_sorted key S1 S2 hs1 hs2, ?_, ?_, ?_⟩
      · rw [hX12]
        exact (mergeList_perm key S1 S2).trans (List.Perm.append hp1 hp2)
      · intro v
        rw [mergeList_filter key v S1 S2 hs1, hf1, hf2, hX12, List.filter_append]
      · intro e he
        simp only [List.mem_append] at he
        rcases he with (h | h) | h
        · exact he1 e h
        · obtain ⟨h1, h2⟩ := he2 e h
          exact ⟨by rw [h1, hperm1.length_eq], fun x hx => hperm1.mem_iff.1 (h2 x hx)⟩
        · have := writeEvents_mem (fun x => x ∈ r2.array) (mergeList key S1 S2) r2.array left
            (by
              intro v hv
              rw [ha2]
              rcases (mem_mergeList key S1 S2 v).1 hv with h | h
              · simp [h]
              · simp [h])
            (fun x hx => hx) e h
          exact ⟨by rw [this.1, hperm2.length_eq], fun x hx => hperm2.mem_iff.1 (this.2 x hx)⟩
      · intro e he
        have hne : writeEvents r2.array left (mergeList key S1 S2) ≠ [] := by
          intro h0
          have h3 := congrArg List.length h0
          rw [writeEvents_length, mergeList_length, hp1.length_eq, hp2.length_eq, hn1, hn2] at h3
          simp only [List.length_nil] at h3
          omega
        rw [List.getLast?_append_of_ne_nil _ hne] at he
        rw [writeEvents_getLast _ _ _ e he]
        exact hw
    · rw [mergeSort, dif_neg hlt]
      refine ⟨X, harr, List.Perm.refl _, ?_, fun _ => rfl, ?_, ?_⟩
      · have : X.length ≤ 1 := by omega
        match X, this with
        | [], _ => exact List.Pairwise.nil
        | [x], _ => exact List.pairwise_singleton _ _
      · intro e he; simp at he
      · intro e he; simp at he


end Keyed

/-! ## The program is the keyed code at `key = id` -/

theorem swap_eq_keyed (a : List Int) (i j : Nat) : swap a i j = Keyed.swap 0 a i j := rfl

theorem bubbleStep_eq_keyed (size : Nat) :
    bubbleStep size = Keyed.bubbleStep (fun x => x) 0 size := rfl

theorem bubblePass_eq_keyed (size : Nat) :
    bubblePass size = Keyed.bubblePass (fun x => x) 0 size := rfl

theorem bubbleSort_eq_keyed (a : List Int) (size : Nat) :
    bubbleSort a size = Keyed.bubbleSort (fun x => x) 0 a size := rfl

theorem mergeLoop1_eq_keyed (L R : List Int) (n1 n2 : Nat) :
    ∀ (n : Nat) (s : MergeState Int), (n1 - s.i) + (n2 - s.j) = n →
      mergeLoop1 L R n1 n2 s = Keyed.mergeLoop1 (fun x => x) 0 L R n1 n2 s
  | n, s, hn => by
    rw [mergeLoop1, Keyed.mergeLoop1]
    by_cases hc : s.i < n1 ∧ s.j < n2
    · rw [dif_pos hc, dif_pos hc]
      cases n with
      | zero => omega
      | succ n =>
        by_cases hk : L.getD s.i 0 ≤ R.getD s.j 0
        · rw [if_pos hk, if_pos hk]
          exact mergeLoop1_eq_keyed L R n1 n2 n _ (by simp; omega)
        · rw [if_neg hk, if_neg hk]
          exact mergeLoop1_eq_keyed L R n1 n2 n _ (by simp; omega)
    · rw [dif_neg hc, dif_neg hc]

theorem mergeLoop2_eq_keyed (L : List Int) (n1 : Nat) :
    ∀ (n : Nat) (s : MergeState Int), n1 - s.i = n →
      mergeLoop2 L n1 s = Keyed.mergeLoop2 0 L n1 s
  | n, s, hn => by
    rw [mergeLoop2, Keyed.mergeLoop2]
    by_cases hc : s.i < n1
    · rw [dif_pos hc, dif_pos hc]
      cases n with
      | zero => omega
      | succ n => exact mergeLoop2_eq_keyed L n1 n _ (by simp; omega)
    · rw [dif_neg hc, dif_neg hc]

theorem mergeLoop3_eq_keyed (R : List Int) (n2 : Nat) :
    ∀ (n : Nat) (s : MergeState Int), n2 - s.j = n →
      mergeLoop3 R n2 s = Keyed.mergeLoop3 0 R n2 s
  | n, s, hn => by
    rw [mergeLoop3, Keyed.mergeLoop3]
    by_cases hc : s.j < n2
    · rw [dif_pos hc, dif_pos hc]
      cases n with
      | zero => omega
      | succ n => exact mergeLoop3_eq_keyed R n2 n _ (by simp; omega)
    · rw [dif_neg hc, dif_neg hc]

theorem merge_eq_keyed (a : List Int) (left mid right : Nat) :
    merge a left mid right = Keyed.merge (fun x => x) 0 a left mid right := by
  unfold merge Keyed.merge
  simp only []
  rw [mergeLoop1_eq_keyed _ _ _ _ _ _ rfl, mergeLoop2_eq_keyed _ _ _ _ rfl,
    mergeLoop3_eq_keyed _ _ _ _ rfl]

theorem mergeSort_eq_keyed : ∀ (n : Nat) (a : List Int) (left right : Nat), right - left = n →
    mergeSort a left right = Keyed.mergeSort (fun x => x) 0 a left right := by
  intro n
  induction n using Nat.strong_induction_on with
  | _ n ih =>
    intro a left right hn
    rw [mergeSort, Keyed.mergeSort]
    by_cases hlt : left < right
    · rw [dif_pos hlt, dif_pos hlt]
      simp only []
      rw [ih _ (by omega) a left _ rfl, ih _ (by omega) _ _ right rfl, merge_eq_keyed]
    · rw [dif_neg hlt, dif_neg hlt]


/-! ## Ranges of an array -/

section Ranges

variable {α : Type}

theorem range_cut (a : List α) (left right : Nat) (_h1 : left ≤ right) (h2 : right < a.length) :
    a = a.take left ++ slice a left right ++ a.drop (right + 1) ∧
      (a.take left).length = left ∧ (slice a left right).length = right + 1 - left := by
  refine ⟨?_, by simp; omega, by simp [slice]; omega⟩
  unfold slice
  have h : a.drop (right + 1) = (a.drop left).drop (right + 1 - left) := by
    rw [List.drop_drop]; congr 1; omega
  rw [h, List.append_assoc, List.take_append_drop, List.take_append_drop]

theorem slice_ctx (P S T : List α) (left right : Nat) (hl : left = P.length)
    (hr : right + 1 = left + S.length) : slice (P ++ S ++ T) left right = S := by
  unfold slice
  have : right + 1 - left = S.length := by omega
  rw [this, hl, List.append_assoc, List.drop_left, List.take_left]

theorem slice_whole (a : List α) : slice a 0 (a.length - 1) = a := by
  unfold slice
  cases a with
  | nil => rfl
  | cons x a => simp

theorem getD_ctx_range (d : α) (P S T : List α) (p : Nat) (h1 : P.length ≤ p)
    (h2 : p < P.length + S.length) : (P ++ S ++ T).getD p d = S.getD (p - P.length) d := by
  have := Keyed.getD_ctx d P S T (p - P.length) (by omega)
  rw [← this]; congr 1; omega

theorem pairwise_getD (R : α → α → Prop) (d : α) (S : List α) (hS : S.Pairwise R) (p q : Nat)
    (hpq : p < q) (hq : q < S.length) : R (S.getD p d) (S.getD q d) := by
  rw [getD_of_lt d S p (by omega), getD_of_lt d S q hq]
  exact List.pairwise_iff_getElem.1 hS p q (by omega) hq hpq

theorem pairwise_ctx_getD (R : α → α → Prop) (d : α) (P S T : List α) (hS : S.Pairwise R)
    (p q : Nat) (h1 : P.length ≤ p) (hpq : p < q) (hq : q < P.length + S.length) :
    R ((P ++ S ++ T).getD p d) ((P ++ S ++ T).getD q d) := by
  rw [getD_ctx_range d P S T p h1 (by omega), getD_ctx_range d P S T q (by omega) hq]
  exact pairwise_getD R d S hS _ _ (by omega) (by omega)

theorem pairwise_of_getD (R : α → α → Prop) (d : α) (S : List α)
    (h : ∀ p q, p < q → q < S.length → R (S.getD p d) (S.getD q d)) : S.Pairwise R := by
  rw [List.pairwise_iff_getElem]
  intro i j hi hj hij
  have := h i j hij hj
  rwa [getD_of_lt d S i hi, getD_of_lt d S j hj] at this

end Ranges

namespace Keyed

variable {α : Type}

/-! ### The events of a sequence of writes -/

theorem stateAt_cons (a : List α) (e : StepEvent α) (evs : List (StepEvent α)) :
    ∀ t, t ≤ evs.length → stateAt a (e :: evs) (t + 1) = stateAt e.array evs t
  | 0, _ => by simp [stateAt]
  | t + 1, h => by
    have ht : t < evs.length := h
    simp [stateAt, List.getElem?_eq_getElem ht]

theorem writeAll_length : ∀ (vs arr : List α) (k : Nat), (writeAll arr k vs).length = arr.length
  | [], _, _ => rfl
  | v :: vs, arr, k => by simp [writeAll, writeAll_length vs]

theorem writeAll_getD_lt (d : α) : ∀ (vs arr : List α) (k p : Nat), p < k →
    (writeAll arr k vs).getD p d = arr.getD p d
  | [], _, _, _, _ => rfl
  | v :: vs, arr, k, p, h => by
    rw [writeAll, writeAll_getD_lt d vs _ _ p (by omega), getD_set_ne d _ _ (by omega)]

theorem writeAll_getD (d : α) : ∀ (vs arr : List α) (k t : Nat), t < vs.length →
    k + vs.length ≤ arr.length → (writeAll arr k vs).getD (k + t) d = vs.getD t d
  | [], _, _, _, h, _ => by simp at h
  | v :: vs, arr, k, 0, _, hk => by
    simp only [List.length_cons] at hk
    show (writeAll (arr.set k v) (k + 1) vs).getD k d = v
    rw [writeAll_getD_lt d vs _ _ k (by omega), getD_set_eq d _ _ _ (by omega)]
  | v :: vs, arr, k, t + 1, h, hk => by
    simp only [List.length_cons] at hk h
    rw [writeAll]
    have := writeAll_getD d vs (arr.set k v) (k + 1) t (by omega) (by simp; omega)
    rw [show k + (t + 1) = k + 1 + t by omega, this]
    rfl

theorem writeEvents_stateAt_last : ∀ (vs arr : List α) (k : Nat),
    stateAt arr (writeEvents arr k vs) vs.length = writeAll arr k vs
  | [], _, _ => rfl
  | v :: vs, arr, k => by
    rw [writeEvents, List.length_cons, stateAt_cons _ _ _ _ (by rw [writeEvents_length]),
      writeAll]
    exact writeEvents_stateAt_last vs _ _

/-- Event number `t` of a sequence of writes: it comes after the write of value
number `t` into cell `k + t` of the array left by the events before it. -/
theorem writeEvents_get (d : α) : ∀ (vs arr : List α) (k t : Nat), t < vs.length →
    (writeEvents arr k vs).getD t ⟨[], 0, 0, 0⟩ =
      ⟨(stateAt arr (writeEvents arr k vs) t).set (k + t) (vs.getD t d), ARRAY_SIZE,
        ((k + t : Nat) : Int), -1⟩
  | [], _, _, _, h => by simp at h
  | v :: vs, arr, k, 0, _ => by simp [writeEvents, stateAt]
  | v :: vs, arr, k, t + 1, h => by
    simp only [List.length_cons] at h
    have := writeEvents_get d vs (arr.set k v) (k + 1) t (by omega)
    rw [writeEvents, stateAt_cons _ _ _ _ (by rw [writeEvents_length]; omega)]
    simp only [List.getD_cons_succ]
    rw [this, show k + (t + 1) = k + 1 + t by omega]


/-! ### Relabelling the elements commutes with the code -/

variable {β : Type}

theorem swap_map (f : α → β) (d : α) (l : List α) (a b : Nat) :
    (swap d l a b).map f = swap (f d) (l.map f) a b := by
  simp [swap, List.map_set]

theorem bubbleStep_map (f : α → β) (key : α → Int) (key2 : β → Int)
    (hk : ∀ x, key2 (f x) = key x) (d : α) (size : Nat) (s : Run α) (j : Nat) :
    bubbleStep key2 (f d) size (mapRun f s) j = mapRun f (bubbleStep key d size s j) := by
  unfold bubbleStep
  simp only [mapRun, List.getD_map, hk]
  split
  · simp [mapEvent, swap_map]
  · rfl

theorem bubbleSort_map (f : α → β) (key : α → Int) (key2 : β → Int)
    (hk : ∀ x, key2 (f x) = key x) (d : α) (a : List α) (size : Nat) :
    bubbleSort key2 (f d) (a.map f) size = mapRun f (bubbleSort key d a size) := by
  unfold bubbleSort
  have h0 : (⟨a.map f, []⟩ : Run β) = mapRun f ⟨a, []⟩ := rfl
  rw [h0]
  apply List.foldl_hom
  intro s i
  unfold bubblePass
  apply List.foldl_hom
  intro s j
  exact bubbleStep_map f key key2 hk d size s j

theorem mergeLoop1_map (f : α → β) (key : α → Int) (key2 : β → Int)
    (hk : ∀ x, key2 (f x) = key x) (d : α) (L R : List α) (n1 n2 : Nat) :
    ∀ (n : Nat) (s : MergeState α), (n1 - s.i) + (n2 - s.j) = n →
      mergeLoop1 key2 (f d) (L.map f) (R.map f) n1 n2 (mapState f s)
        = mapState f (mergeLoop1 key d L R n1 n2 s)
  | n, s, hn => by
    conv_lhs => rw [mergeLoop1]
    conv_rhs => rw [mergeLoop1]
    by_cases hc : s.i < n1 ∧ s.j < n2
    · have hc2 : (mapState f s).i < n1 ∧ (mapState f s).j < n2 := hc
      rw [dif_pos hc, dif_pos hc2]
      cases n with
      | zero => omega
      | succ n =>
        have e1 : key2 ((L.map f).getD (mapState f s).i (f d)) = key (L.getD s.i d) := by
          simp [mapState, List.getD_map, hk]
        have e2 : key2 ((R.map f).getD (mapState f s).j (f d)) = key (R.getD s.j d) := by
          simp [mapState, List.getD_map, hk]
        rw [e1, e2]
        by_cases hcmp : key (L.getD s.i d) ≤ key (R.getD s.j d)
        · rw [if_pos hcmp, if_pos hcmp]
          simp only []
          rw [← mergeLoop1_map f key key2 hk d L R n1 n2 n _ (by simp; omega)]
          congr 1
          simp [mapState, mapEvent, List.map_set, List.getD_map]
        · rw [if_neg hcmp, if_neg hcmp]
          simp only []
          rw [← mergeLoop1_map f key key2 hk d L R n1 n2 n _ (by simp; omega)]
          congr 1
          simp [mapState, mapEvent, List.map_set, List.getD_map]
    · have hc2 : ¬ ((mapState f s).i < n1 ∧ (mapState f s).j < n2) := hc
      rw [dif_neg hc, dif_neg hc2]

theorem mergeLoop2_map (f : α → β) (d : α) (L : List α) (n1 : Nat) :
    ∀ (n : Nat) (s : MergeState α), n1 - s.i = n →
      mergeLoop2 (f d) (L.map f) n1 (mapState f s) = mapState f (mergeLoop2 d L n1 s)
  | n, s, hn => by
    conv_lhs => rw [mergeLoop2]
    conv_rhs => rw [mergeLoop2]
    by_cases hc : s.i < n1
    · have hc2 : (mapState f s).i < n1 := hc
      rw [dif_pos hc, dif_pos hc2]
      cases n with
      | zero => omega
      | succ n =>
        simp only []
        rw [← mergeLoop2_map f d L n1 n _ (by simp; omega)]
        congr 1
        simp [mapState, mapEvent, List.map_set, List.getD_map]
    · have hc2 : ¬ (mapState f s).i < n1 := hc
      rw [dif_neg hc, dif_neg hc2]

theorem mergeLoop3_map (f : α → β) (d : α) (R : List α) (n2 : Nat) :
    ∀ (n : Nat) (s : MergeState α), n2 - s.j = n →
      mergeLoop3 (f d) (R.map f) n2 (mapState f s) = mapState f (mergeLoop3 d R n2 s)
  | n, s, hn => by
    conv_lhs => rw [mergeLoop3]
    conv_rhs => rw [mergeLoop3]
    by_cases hc : s.j < n2
    · have hc2 : (mapState f s).j < n2 := hc
      rw [dif_pos hc, dif_pos hc2]
      cases n with
      | zero => omega
      | succ n =>
        simp only []
        rw [← mergeLoop3_map f d R n2 n _ (by simp; omega)]
        congr 1
        simp [mapState, mapEvent, List.map_set, List.getD_map]
    · have hc2 : ¬ (mapState f s).j < n2 := hc
      rw [dif_neg hc, dif_neg hc2]

theorem merge_map (f : α → β) (key : α → Int) (key2 : β → Int)
    (hk : ∀ x, key2 (f x) = key x) (d : α) (a : List α) (left mid right : Nat) :
    merge key2 (f d) (a.map f) left mid right = mapRun f (merge key d a left mid right) := by
  unfold merge
  simp only []
  have hL : (List.range (mid + 1 - left)).map (fun i => (a.map f).getD (left + i) (f d))
      = ((List.range (mid + 1 - left)).map (fun i => a.getD (left + i) d)).map f := by
    simp [List.getD_map]
  have hR : (List.range (right - mid)).map (fun i => (a.map f).getD (mid + 1 + i) (f d))
      = ((List.range (right - mid)).map (fun i => a.getD (mid + 1 + i) d)).map f := by
    simp [List.getD_map]
  have h0 : (⟨a.map f, [], 0, 0, left⟩ : MergeState β) = mapState f ⟨a, [], 0, 0, left⟩ := rfl
  rw [hL, hR, h0, mergeLoop1_map f key key2 hk d _ _ _ _ _ _ rfl,
    mergeLoop2_map f d _ _ _ _ rfl, mergeLoop3_map f d _ _ _ _ rfl]
  rfl

theorem mergeSort_map (f : α → β) (key : α → Int) (key2 : β → Int)
    (hk : ∀ x, key2 (f x) = key x) (d : α) :
    ∀ (n : Nat) (a : List α) (left right : Nat), right - left = n →
      mergeSort key2 (f d) (a.map f) left right = mapRun f (mergeSort key d a left right) := by
  intro n
  induction n using Nat.strong_induction_on with
  | _ n ih =>
    intro a left right hn
    conv_lhs => rw [mergeSort]
    conv_rhs => rw [mergeSort]
    by_cases hlt : left < right
    · rw [dif_pos hlt, dif_pos hlt]
      simp only []
      rw [ih _ (by omega) a left _ rfl]
      simp only [mapRun]
      rw [ih _ (by omega) _ _ right rfl]
      simp only [mapRun]
      rw [merge_map f key key2 hk d]
      simp [mapRun]
    · rw [dif_neg hlt, dif_neg hlt]
      rfl

/-! ### Elements tagged with their position -/

/-- If each key class of `S` is the key class of `X`, in the same order, then
two elements of `S` with equal keys stand in the order they have in `X`. -/
theorem stable_of_filter (key : α → Int) (R : α → α → Prop) (S X : List α)
    (hX : X.Pairwise R)
    (hf : ∀ v : Int, S.filter (fun x => key x = v) = X.filter (fun x => key x = v)) :
    S.Pairwise (fun x y => key x = key y → R x y) := by
  rw [List.pairwise_iff_getElem]
  intro i j hi hj hij heq
  have hP : (S.filter (fun x => key x = key S[i])).Pairwise R := by
    rw [hf]; exact hX.sublist (List.filter_sublist _)
  have := List.pairwise_iff_getElem.1 (List.pairwise_filter.1 hP) i j hi hj hij
  exact this rfl heq.symm

end Keyed

theorem tag_length (a : List Int) : (tag a).length = a.length := by simp [tag]

theorem tag_map_fst (a : List Int) : (tag a).map Prod.fst = a :=
  List.map_fst_zip _ _ (by simp)

theorem tag_getD (a : List Int) (i : Nat) (h : i < a.length) :
    (tag a).getD i (0, 0) = (a.getD i 0, i) := by
  have h2 : i < (tag a).length := by rw [tag_length]; exact h
  rw [getD_of_lt _ _ _ h2, getD_of_lt _ _ _ h]
  simp [tag, List.getElem_zip]

theorem tag_pairwise (a : List Int) : (tag a).Pairwise (fun x y => x.2 < y.2) := by
  have h : ((tag a).map Prod.snd).Pairwise (fun x y => x < y) := by
    rw [tag, List.map_snd_zip _ _ (by simp)]
    exact List.pairwise_lt_range _
  exact List.pairwise_map.1 h


namespace Keyed

variable {α : Type}

/-- What `mergeSort` does on a valid range `left..right` of `a`. -/
theorem mergeSort_range (key : α → Int) (d : α) (a : List α) (left right : Nat)
    (h1 : left ≤ right) (h2 : right < a.length) :
    ∃ S, (mergeSort key d a left right).array = a.take left ++ S ++ a.drop (right + 1) ∧
      S.length = right + 1 - left ∧ S.Perm (slice a left right) ∧
      S.Pairwise (fun x y => key x ≤ key y) ∧
      (∀ v : Int, S.filter (fun x => key x = v) = (slice a left right).filter (fun x => key x = v)) ∧
      (∀ e ∈ (mergeSort key d a left right).events,
        e.array.length = a.length ∧ ∀ x ∈ e.array, x ∈ a) ∧
      (∀ e, (mergeSort key d a left right).events.getLast? = some e →
        e.array = (mergeSort key d a left right).array) := by
  obtain ⟨hcut, hP, hX⟩ := range_cut a left right h1 h2
  obtain ⟨S, hS, hperm, hrest⟩ := mergeSort_ctx key d (right + 1 - left) a (a.take left)
    (slice a left right) (a.drop (right + 1)) left right hcut hP.symm hX (by omega)
  exact ⟨S, hS, by rw [hperm.length_eq, hX], hperm, hrest⟩

theorem mergeSort_range_slice (key : α → Int) (d : α) (a S : List α) (left right : Nat)
    (h1 : left ≤ right) (h2 : right < a.length)
    (hS : (mergeSort key d a left right).array = a.take left ++ S ++ a.drop (right + 1))
    (hlen : S.length = right + 1 - left) :
    slice (mergeSort key d a left right).array left right = S := by
  rw [hS]
  exact slice_ctx _ S _ left right (by simp; omega) (by omega)

/-- What `mergeSort` does when it is given the whole array. -/
theorem mergeSort_whole (key : α → Int) (d : α) (a : List α) :
    (mergeSort key d a 0 (a.length - 1)).array.Perm a ∧
      (mergeSort key d a 0 (a.length - 1)).array.Pairwise (fun x y => key x ≤ key y) ∧
      (∀ v : Int, (mergeSort key d a 0 (a.length - 1)).array.filter (fun x => key x = v)
        = a.filter (fun x => key x = v)) ∧
      (∀ e ∈ (mergeSort key d a 0 (a.length - 1)).events,
        e.array.length = a.length ∧ ∀ x ∈ e.array, x ∈ a) ∧
      (∀ e, (mergeSort key d a 0 (a.length - 1)).events.getLast? = some e →
        e.array = (mergeSort key d a 0 (a.length - 1)).array) := by
  by_cases ha : a.length = 0
  · have : a = [] := List.length_eq_zero.1 ha
    subst this
    rw [mergeSort, dif_neg (by simp)]
    simp
  · obtain ⟨S, hS, hlen, hperm, hsort, hfil, hev, hlast⟩ :=
      mergeSort_range key d a 0 (a.length - 1) (Nat.zero_le _) (by omega)
    have hd : a.drop (a.length - 1 + 1) = [] := List.drop_eq_nil_of_le (by omega)
    rw [hd, List.take_zero, List.nil_append, List.append_nil] at hS
    rw [slice_whole] at hperm hfil
    rw [hS]
    exact ⟨hperm, hsort, hfil, hev, fun e he => by rw [hlast e he, hS]⟩

/-- The events of one call of `merge` on a valid range. -/
theorem merge_events (key : α → Int) (d : α) (a : List α) (left mid right : Nat)
    (h1 : left ≤ mid) (h2 : mid < right) (h3 : right < a.length) :
    (merge key d a left mid right).events.length = right - left + 1 ∧
      (merge key d a left mid right).array
        = stateAt a (merge key d a left mid right).events
            (merge key d a left mid right).events.length ∧
      ∀ t (ht : t < (merge key d a left mid right).events.length),
        ((merge key d a left mid right).events.get ⟨t, ht⟩).idx1 = ((left + t : Nat) : Int) ∧
        ((merge key d a left mid right).events.get ⟨t, ht⟩).idx2 = -1 ∧
        ((merge key d a left mid right).events.get ⟨t, ht⟩).size = ARRAY_SIZE ∧
        ((merge key d a left mid right).events.get ⟨t, ht⟩).array
          = (stateAt a (merge key d a left mid right).events t).set (left + t)
              ((merge key d a left mid right).array.getD (left + t) d) ∧
        ((merge key d a left mid right).events.get ⟨t, ht⟩).array.getD (left + t) d
          = (merge key d a left mid right).array.getD (left + t) d := by
  rw [merge_spec]
  generalize hM : mergeList key (bufL d a left mid) (bufR d a mid right) = M
  have hlen : M.length = right - left + 1 := by
    rw [← hM, mergeList_length]; simp [bufL, bufR]; omega
  simp only []
  refine ⟨by rw [writeEvents_length, hlen], ?_, ?_⟩
  · rw [writeEvents_length, writeEvents_stateAt_last]
  · intro t ht
    have ht2 : t < M.length := by rw [writeEvents_length] at ht; exact ht
    have hg := writeEvents_get d M a left t ht2
    rw [getD_of_lt _ _ _ ht] at hg
    rw [List.get_eq_getElem, hg]
    have hw := writeAll_getD d M a left t ht2 (by omega)
    simp only []
    rw [hw]
    simp only [true_and]
    apply getD_set_eq
    cases t with
    | zero => simp [stateAt]; omega
    | succ t =>
      have ht3 : t < (writeEvents a left M).length := by omega
      simp only [stateAt, List.getElem?_eq_getElem ht3]
      have := (writeEvents_mem (fun _ => True) M a left (fun _ _ => trivial)
        (fun _ _ => trivial) _ (List.getElem_mem ht3)).1
      rw [this]; omega

end Keyed


/-! ## Worked runs -/

theorem bubbleSort_run_531 :
    bubbleSort [5, 3, 1] 3
      = ⟨[1, 3, 5], [⟨[3, 5, 1], 3, 0, 1⟩, ⟨[3, 1, 5], 3, 1, 2⟩, ⟨[1, 3, 5], 3, 0, 1⟩]⟩ := by
  decide

theorem merge_run_42 :
    merge [4, 2] 0 0 1 = ⟨[2, 4], [⟨[2, 2], 100, 0, -1⟩, ⟨[2, 4], 100, 1, -1⟩]⟩ := by
  simp [merge, mergeLoop1, mergeLoop2, mergeLoop3, ARRAY_SIZE, List.range, List.range.loop]

/-- With `mid < left` both run lengths are `0` or less in C: no loop runs and
no callback is made. -/
theorem merge_run_mid_below_left :
    merge [9, 5, 7, 8] 1 0 0 = ⟨[9, 5, 7, 8], []⟩ := by
  simp [merge, mergeLoop1, mergeLoop2, mergeLoop3, List.range, List.range.loop]

/-- With `mid < left <= right` only the run `R` is copied back. -/
theorem merge_run_left_run_empty :
    merge [9, 5, 7, 8] 1 0 2
      = ⟨[9, 5, 7, 8], [⟨[9, 5, 7, 8], 100, 1, -1⟩, ⟨[9, 5, 7, 8], 100, 2, -1⟩]⟩ := by
  simp [merge, mergeLoop1, mergeLoop2, mergeLoop3, ARRAY_SIZE, List.range, List.range.loop]

theorem mergeSort_run_42 :
    mergeSort [4, 2] 0 1 = ⟨[2, 4], [⟨[2, 2], 100, 0, -1⟩, ⟨[2, 4], 100, 1, -1⟩]⟩ := by
  rw [mergeSort, dif_pos (by decide)]
  simp only []
  rw [mergeSort, dif_neg (by decide)]
  rw [mergeSort, dif_neg (by decide)]
  simp [merge_run_42]

theorem keyed_mergeSort_run_33 :
    (Keyed.mergeSort Prod.fst (0, 0) (tag [3, 3]) 0 1).array = [(3, 0), (3, 1)] := by
  rw [Keyed.mergeSort, dif_pos (by decide)]
  simp only []
  rw [Keyed.mergeSort, dif_neg (by decide)]
  rw [Keyed.mergeSort, dif_neg (by decide)]
  simp [Keyed.merge, Keyed.mergeLoop1, Keyed.mergeLoop2, Keyed.mergeLoop3, tag, List.range,
    List.range.loop]

/-! ## The claims -/

/-- C1: after `bubbleSort(a, N)` on an array of length `N` the array still has
length `N` and is non-decreasing: `a[i] <= a[j]` for all `i < j < N`. -/
theorem bubbleSort_nondecreasing (a : List Int) :
    (bubbleSort a a.length).array.length = a.length ∧
      (∀ i j : Nat, i < j → j < a.length →
        (bubbleSort a a.length).array.getD i 0 ≤ (bubbleSort a a.length).array.getD j 0) ∧
      (bubbleSort a a.length).array.Pairwise (fun x y => x ≤ y) := by
  have hlen : (bubbleSort a a.length).array.length = a.length := by
    rw [bubbleSort_eq_keyed]
    exact (Keyed.bubbleSort_preserves (fun x => x) 0 a).1
  have hidx : ∀ i j : Nat, i < j → j < a.length →
      (bubbleSort a a.length).array.getD i 0 ≤ (bubbleSort a a.length).array.getD j 0 := by
    intro i j hij hj
    rw [bubbleSort_eq_keyed]
    exact (Keyed.bubbleSort_sorted (fun x => x) 0 a i j hij hj).2
  refine ⟨hlen, hidx, pairwise_of_getD _ 0 _ ?_⟩
  intro p q hpq hq
  exact hidx p q hpq (by rw [← hlen]; exact hq)

theorem bubbleSort_nondecreasing_witness :
    (0 : Nat) < 1 ∧ 1 < [5, 3, 1].length ∧
      (bubbleSort [5, 3, 1] [5, 3, 1].length).array.getD 0 0
        ≤ (bubbleSort [5, 3, 1] [5, 3, 1].length).array.getD 1 0 :=
  ⟨by decide, by decide, (bubbleSort_nondecreasing [5, 3, 1]).2.1 0 1 (by decide) (by decide)⟩

/-- C2: for `0 <= left <= right < length(a)`, after `mergeSort(a, left, right)`
the cells `left..right` are non-decreasing; and `mergeSort(a, 0, N-1)` leaves
the whole array of length `N` non-decreasing. -/
theorem mergeSort_nondecreasing (a : List Int) (left right : Nat)
    (h1 : left ≤ right) (h2 : right < a.length) :
    (mergeSort a left right).array.length = a.length ∧
      (∀ i j : Nat, left ≤ i → i < j → j ≤ right →
        (mergeSort a left right).array.getD i 0 ≤ (mergeSort a left right).array.getD j 0) ∧
      (slice (mergeSort a left right).array left right).Pairwise (fun x y => x ≤ y) ∧
      (mergeSort a 0 (a.length - 1)).array.Pairwise (fun x y => x ≤ y) := by
  rw [mergeSort_eq_keyed _ a left right rfl, mergeSort_eq_keyed _ a 0 _ rfl]
  obtain ⟨S, hS, hlen, hperm, hsort, _⟩ :=
    Keyed.mergeSort_range (fun x : Int => x) 0 a left right h1 h2
  have hsl := Keyed.mergeSort_range_slice (fun x : Int => x) 0 a S left right h1 h2 hS hlen
  refine ⟨?_, ?_, by rw [hsl]; exact hsort,
    (Keyed.mergeSort_whole (fun x : Int => x) 0 a).2.1⟩
  · rw [hS]; simp; omega
  · intro i j hi hij hj
    rw [hS]
    exact pairwise_ctx_getD (fun x y : Int => x ≤ y) 0 _ S _ hsort i j (by simp; omega) hij
      (by simp; omega)

theorem mergeSort_nondecreasing_witness :
    (0 : Nat) ≤ 1 ∧ 1 < [4, 2].length ∧
      (mergeSort [4, 2] 0 1).array.length = [4, 2].length ∧
      (∀ i j : Nat, 0 ≤ i → i < j → j ≤ 1 →
        (mergeSort [4, 2] 0 1).array.getD i 0 ≤ (mergeSort [4, 2] 0 1).array.getD j 0) ∧
      (slice (mergeSort [4, 2] 0 1).array 0 1).Pairwise (fun x y => x ≤ y) ∧
      (mergeSort [4, 2] 0 ([4, 2].length - 1)).array.Pairwise (fun x y => x ≤ y) :=
  ⟨by decide, by decide, mergeSort_nondecreasing [4, 2] 0 1 (by decide) (by decide)⟩

/-- C3: the array left by `bubbleSort(a, N)` is a permutation of the input
array: same length, same values with the same multiplicities. -/
theorem bubbleSort_perm (a : List Int) :
    (bubbleSort a a.length).array.Perm a ∧
      (bubbleSort a a.length).array.length = a.length ∧
      ∀ v : Int, (bubbleSort a a.length).array.count v = a.count v := by
  rw [bubbleSort_eq_keyed]
  obtain ⟨hl, hp, _, _⟩ := Keyed.bubbleSort_preserves (fun x : Int => x) 0 a
  exact ⟨hp, hl, fun v => hp.count_eq v⟩

/-- C4: for `0 <= left <= right < length(a)`, the cells `left..right` after
`mergeSort(a, left, right)` are a permutation of what they were before; and
`mergeSort(a, 0, N-1)` leaves a permutation of the input array. -/
theorem mergeSort_perm (a : List Int) (left right : Nat)
    (h1 : left ≤ right) (h2 : right < a.length) :
    (slice (mergeSort a left right).array left right).Perm (slice a left right) ∧
      (mergeSort a left right).array.Perm a ∧
      (mergeSort a 0 (a.length - 1)).array.Perm a := by
  rw [mergeSort_eq_keyed _ a left right rfl, mergeSort_eq_keyed _ a 0 _ rfl]
  obtain ⟨S, hS, hlen, hperm, _⟩ :=
    Keyed.mergeSort_range (fun x : Int => x) 0 a left right h1 h2
  have hsl := Keyed.mergeSort_range_slice (fun x : Int => x) 0 a S left right h1 h2 hS hlen
  refine ⟨by rw [hsl]; exact hperm, ?_, (Keyed.mergeSort_whole (fun x : Int => x) 0 a).1⟩
  rw [hS]
  conv_rhs => rw [(range_cut a left right h1 h2).1]
  exact List.Perm.append_right _ (List.Perm.append_left _ hperm)

theorem mergeSort_perm_witness :
    (0 : Nat) ≤ 1 ∧ 1 < [4, 2].length ∧
      (slice (mergeSort [4, 2] 0 1).array 0 1).Perm (slice [4, 2] 0 1) ∧
      (mergeSort [4, 2] 0 1).array.Perm [4, 2] ∧
      (mergeSort [4, 2] 0 ([4, 2].length - 1)).array.Perm [4, 2] :=
  ⟨by decide, by decide, mergeSort_perm [4, 2] 0 1 (by decide) (by decide)⟩

/-- C5, as stated, fails: on `a = [4,2]` the first callback of
`mergeSort(a, 0, 1)` sees the array `[2,2]`, which is not a permutation of
`[4,2]`. -/
theorem mergeSort_event_not_perm :
    ¬ ∀ e ∈ (mergeSort [4, 2] 0 ([4, 2].length - 1)).events, e.array.Perm [4, 2] := by
  intro h
  have h1 := h ⟨[2, 2], 100, 0, -1⟩ (by
    show _ ∈ (mergeSort [4, 2] 0 1).events
    rw [mergeSort_run_42]; simp)
  have h4 : (4 : Int) ∈ ([2, 2] : List Int) := h1.mem_iff.2 (List.mem_cons_self 4 [2])
  simp at h4

/-- C5, amended: at every callback during `mergeSort(a, 0, N-1)` the array has
the length of the input and every value in it is a value of the input; the
array left when `mergeSort` returns is a permutation of the input, and it is
the array seen by the last callback. -/
theorem mergeSort_events_values (a : List Int) :
    (∀ e ∈ (mergeSort a 0 (a.length - 1)).events,
        e.array.length = a.length ∧ ∀ x ∈ e.array, x ∈ a) ∧
      (mergeSort a 0 (a.length - 1)).array.Perm a ∧
      (∀ e, (mergeSort a 0 (a.length - 1)).events.getLast? = some e →
        e.array = (mergeSort a 0 (a.length - 1)).array) := by
  rw [mergeSort_eq_keyed _ a 0 _ rfl]
  obtain ⟨hp, _, _, hev, hlast⟩ := Keyed.mergeSort_whole (fun x : Int => x) 0 a
  exact ⟨hev, hp, hlast⟩

theorem mergeSort_events_values_witness :
    (⟨[2, 2], 100, 0, -1⟩ : StepEvent Int) ∈ (mergeSort [4, 2] 0 ([4, 2].length - 1)).events ∧
      (([2, 2] : List Int).length = [4, 2].length ∧ ∀ x ∈ ([2, 2] : List Int), x ∈ [4, 2]) :=
  have hmem : (⟨[2, 2], 100, 0, -1⟩ : StepEvent Int)
      ∈ (mergeSort [4, 2] 0 ([4, 2].length - 1)).events := by
    show _ ∈ (mergeSort [4, 2] 0 1).events
    rw [mergeSort_run_42]; simp
  ⟨hmem, (mergeSort_events_values [4, 2]).1 _ hmem⟩

/-- C6: at every callback during `bubbleSort(a, N)` the array is a permutation
of the input array. -/
theorem bubbleSort_events_perm (a : List Int) :
    ∀ e ∈ (bubbleSort a a.length).events, e.array.Perm a := by
  rw [bubbleSort_eq_keyed]
  exact (Keyed.bubbleSort_preserves (fun x : Int => x) 0 a).2.2.2

theorem bubbleSort_events_perm_witness :
    (⟨[3, 5, 1], 3, 0, 1⟩ : StepEvent Int) ∈ (bubbleSort [5, 3, 1] [5, 3, 1].length).events ∧
      ([3, 5, 1] : List Int).Perm [5, 3, 1] :=
  ⟨by decide, bubbleSort_events_perm [5, 3, 1] ⟨[3, 5, 1], 3, 0, 1⟩ (by decide)⟩


theorem slice_tag_pairwise (a : List Int) (left right : Nat) :
    (slice (tag a) left right).Pairwise (fun x y => x.2 < y.2) :=
  (tag_pairwise a).sublist ((List.take_sublist _ _).trans (List.drop_sublist _ _))

/-- C7: `mergeSort` is stable.  Each element is followed as the pair (value,
original index), the comparison of `merge` reading the value only.  For
`0 <= left <= right < length(a)`: the values of the tagged run are those of
the run of the program; the cells `left..right` hold the same pairs as before;
and of two cells `p < q` of the range holding equal values, cell `p` holds the
element that came first in the input. -/
theorem mergeSort_stable (a : List Int) (left right : Nat)
    (h1 : left ≤ right) (h2 : right < a.length) :
    (∀ i : Nat, i < a.length → (tag a).getD i (0, 0) = (a.getD i 0, i)) ∧
      (Keyed.mergeSort Prod.fst (0, 0) (tag a) left right).array.map Prod.fst
        = (mergeSort a left right).array ∧
      (slice (Keyed.mergeSort Prod.fst (0, 0) (tag a) left right).array left right).Perm
        (slice (tag a) left right) ∧
      ∀ p q : Nat, left ≤ p → p < q → q ≤ right →
        ((Keyed.mergeSort Prod.fst (0, 0) (tag a) left right).array.getD p (0, 0)).1
          = ((Keyed.mergeSort Prod.fst (0, 0) (tag a) left right).array.getD q (0, 0)).1 →
        ((Keyed.mergeSort Prod.fst (0, 0) (tag a) left right).array.getD p (0, 0)).2
          < ((Keyed.mergeSort Prod.fst (0, 0) (tag a) left right).array.getD q (0, 0)).2 := by
  have h2t : right < (tag a).length := by rw [tag_length]; exact h2
  obtain ⟨S, hS, hlen, hperm, _, hfil, _⟩ :=
    Keyed.mergeSort_range (Prod.fst : Int × Nat → Int) (0, 0) (tag a) left right h1 h2t
  have hsl := Keyed.mergeSort_range_slice (Prod.fst : Int × Nat → Int) (0, 0) (tag a) S
    left right h1 h2t hS hlen
  have hst := Keyed.stable_of_filter (Prod.fst : Int × Nat → Int) (fun x y => x.2 < y.2) S
    (slice (tag a) left right) (slice_tag_pairwise a left right) hfil
  refine ⟨tag_getD a, ?_, by rw [hsl]; exact hperm, ?_⟩
  · have hm := Keyed.mergeSort_map (Prod.fst : Int × Nat → Int) Prod.fst (fun x : Int => x)
      (fun _ => rfl) (0, 0) _ (tag a) left right rfl
    rw [tag_map_fst] at hm
    rw [mergeSort_eq_keyed _ a left right rfl]
    exact (congrArg Run.array hm).symm
  · intro p q hp hpq hq
    rw [hS]
    exact pairwise_ctx_getD _ (0, 0) _ S _ hst p q (by simp; omega) hpq (by simp; omega)

theorem mergeSort_stable_witness :
    (0 : Nat) ≤ 1 ∧ 1 < [3, 3].length ∧
      ((Keyed.mergeSort Prod.fst (0, 0) (tag [3, 3]) 0 1).array.getD 0 (0, 0)).1
        = ((Keyed.mergeSort Prod.fst (0, 0) (tag [3, 3]) 0 1).array.getD 1 (0, 0)).1 ∧
      ((Keyed.mergeSort Prod.fst (0, 0) (tag [3, 3]) 0 1).array.getD 0 (0, 0)).2
        < ((Keyed.mergeSort Prod.fst (0, 0) (tag [3, 3]) 0 1).array.getD 1 (0, 0)).2 :=
  have heq : ((Keyed.mergeSort Prod.fst (0, 0) (tag [3, 3]) 0 1).array.getD 0 (0, 0)).1
        = ((Keyed.mergeSort Prod.fst (0, 0) (tag [3, 3]) 0 1).array.getD 1 (0, 0)).1 := by
    rw [keyed_mergeSort_run_33]; rfl
  ⟨by decide, by decide, heq,
    (mergeSort_stable [3, 3] 0 1 (by decide) (by decide)).2.2.2 0 1 (by decide) (by decide)
      (by decide) heq⟩

/-- C8: `bubbleSort` is stable.  Each element is followed as the pair (value,
original index), the comparison `array[j] > array[j+1]` reading the value only.
The values of the tagged run are those of the run of the program, the output
holds the same pairs as the input, and of two cells `p < q` holding equal
values, cell `p` holds the element that came first in the input. -/
theorem bubbleSort_stable (a : List Int) :
    (∀ i : Nat, i < a.length → (tag a).getD i (0, 0) = (a.getD i 0, i)) ∧
      (Keyed.bubbleSort Prod.fst (0, 0) (tag a) a.length).array.map Prod.fst
        = (bubbleSort a a.length).array ∧
      (Keyed.bubbleSort Prod.fst (0, 0) (tag a) a.length).array.Perm (tag a) ∧
      ∀ p q : Nat, p < q → q < a.length →
        ((Keyed.bubbleSort Prod.fst (0, 0) (tag a) a.length).array.getD p (0, 0)).1
          = ((Keyed.bubbleSort Prod.fst (0, 0) (tag a) a.length).array.getD q (0, 0)).1 →
        ((Keyed.bubbleSort Prod.fst (0, 0) (tag a) a.length).array.getD p (0, 0)).2
          < ((Keyed.bubbleSort Prod.fst (0, 0) (tag a) a.length).array.getD q (0, 0)).2 := by
  have hpres := Keyed.bubbleSort_preserves (Prod.fst : Int × Nat → Int) (0, 0) (tag a)
  rw [tag_length] at hpres
  obtain ⟨hl, hp, hf, _⟩ := hpres
  have hst := Keyed.stable_of_filter (Prod.fst : Int × Nat → Int) (fun x y => x.2 < y.2) _
    (tag a) (tag_pairwise a) hf
  refine ⟨tag_getD a, ?_, hp, ?_⟩
  · have hm := Keyed.bubbleSort_map (Prod.fst : Int × Nat → Int) Prod.fst (fun x : Int => x)
      (fun _ => rfl) (0, 0) (tag a) a.length
    rw [tag_map_fst] at hm
    rw [bubbleSort_eq_keyed]
    exact (congrArg Run.array hm).symm
  · intro p q hpq hq
    exact pairwise_getD _ (0, 0) _ hst p q hpq (by rw [hl]; exact hq)

theorem bubbleSort_stable_witness :
    (0 : Nat) < 1 ∧ 1 < [3, 3].length ∧
      ((Keyed.bubbleSort Prod.fst (0, 0) (tag [3, 3]) [3, 3].length).array.getD 0 (0, 0)).1
        = ((Keyed.bubbleSort Prod.fst (0, 0) (tag [3, 3]) [3, 3].length).array.getD 1 (0, 0)).1 ∧
      ((Keyed.bubbleSort Prod.fst (0, 0) (tag [3, 3]) [3, 3].length).array.getD 0 (0, 0)).2
        < ((Keyed.bubbleSort Prod.fst (0, 0) (tag [3, 3]) [3, 3].length).array.getD 1 (0, 0)).2 :=
  ⟨by decide, by decide, by decide,
    (bubbleSort_stable [3, 3]).2.2.2 0 1 (by decide) (by decide) (by decide)⟩

/-- C9: `bubbleSort` calls the callback exactly when it swaps.  The events are
the swaps in order: event number `t` has indices `(j, j+1)` with `j + 1 < N`,
in the array before it cell `j` is strictly greater than cell `j + 1`, and its
snapshot is that array with the two cells exchanged; the final array is the
state after the last event (the input itself when there is no event).  For
`a = [5,3,1]` the events are `(0,1)` with `[3,5,1]`, `(1,2)` with `[3,1,5]`,
`(0,1)` with `[1,3,5]`, and the final array is `[1,3,5]`. -/
theorem bubbleSort_events_are_swaps (a : List Int) :
    (∀ t (ht : t < (bubbleSort a a.length).events.length),
        ∃ j : Nat, j + 1 < a.length ∧
          ((bubbleSort a a.length).events.get ⟨t, ht⟩).idx1 = j ∧
          ((bubbleSort a a.length).events.get ⟨t, ht⟩).idx2 = j + 1 ∧
          ((bubbleSort a a.length).events.get ⟨t, ht⟩).size = a.length ∧
          (stateAt a (bubbleSort a a.length).events t).getD j 0
            > (stateAt a (bubbleSort a a.length).events t).getD (j + 1) 0 ∧
          ((bubbleSort a a.length).events.get ⟨t, ht⟩).array
            = swap (stateAt a (bubbleSort a a.length).events t) j (j + 1)) ∧
      (bubbleSort a a.length).array
        = stateAt a (bubbleSort a a.length).events (bubbleSort a a.length).events.length ∧
      bubbleSort [5, 3, 1] 3
        = ⟨[1, 3, 5], [⟨[3, 5, 1], 3, 0, 1⟩, ⟨[3, 1, 5], 3, 1, 2⟩, ⟨[1, 3, 5], 3, 0, 1⟩]⟩ := by
  refine ⟨?_, ?_, bubbleSort_run_531⟩
  · intro t ht
    have := (Keyed.bubbleSort_events (fun x : Int => x) 0 a a.length).2 t ht
    exact this
  · exact (Keyed.bubbleSort_events (fun x : Int => x) 0 a a.length).1

theorem bubbleSort_events_are_swaps_witness :
    ∃ ht : 0 < (bubbleSort [5, 3, 1] [5, 3, 1].length).events.length,
      ∃ j : Nat, j + 1 < [5, 3, 1].length ∧
        ((bubbleSort [5, 3, 1] [5, 3, 1].length).events.get ⟨0, ht⟩).idx1 = j ∧
        ((bubbleSort [5, 3, 1] [5, 3, 1].length).events.get ⟨0, ht⟩).idx2 = j + 1 ∧
        ((bubbleSort [5, 3, 1] [5, 3, 1].length).events.get ⟨0, ht⟩).size = [5, 3, 1].length ∧
        (stateAt [5, 3, 1] (bubbleSort [5, 3, 1] [5, 3, 1].length).events 0).getD j 0
          > (stateAt [5, 3, 1] (bubbleSort [5, 3, 1] [5, 3, 1].length).events 0).getD (j + 1) 0 ∧
        ((bubbleSort [5, 3, 1] [5, 3, 1].length).events.get ⟨0, ht⟩).array
          = swap (stateAt [5, 3, 1] (bubbleSort [5, 3, 1] [5, 3, 1].length).events 0) j (j + 1) :=
  ⟨by decide, (bubbleSort_events_are_swaps [5, 3, 1]).1 0 (by decide)⟩

/-- C10: a call `merge(a, left, mid, right)` with `left <= mid < right` inside
the array emits exactly `right - left + 1` events, one after each write: event
number `t` has primary index `left + t` and secondary index `-1`, its snapshot
is the array before it with cell `left + t` overwritten, and the value in that
cell is the one the cell still holds when `merge` returns.  For `a = [4,2]`,
`mergeSort(a, 0, 1)` is the one call `merge(a, 0, 0, 1)`; it emits an event at
index 0 (value 2) and one at index 1 (value 4) and leaves `[2,4]`. -/
theorem merge_events_are_writes (a : List Int) (left mid right : Nat)
    (h1 : left ≤ mid) (h2 : mid < right) (h3 : right < a.length) :
    (merge a left mid right).events.length = right - left + 1 ∧
      (∀ t (ht : t < (merge a left mid right).events.length),
        ((merge a left mid right).events.get ⟨t, ht⟩).idx1 = ((left + t : Nat) : Int) ∧
        ((merge a left mid right).events.get ⟨t, ht⟩).idx2 = -1 ∧
        ((merge a left mid right).events.get ⟨t, ht⟩).array
          = (stateAt a (merge a left mid right).events t).set (left + t)
              ((merge a left mid right).array.getD (left + t) 0) ∧
        ((merge a left mid right).events.get ⟨t, ht⟩).array.getD (left + t) 0
          = (merge a left mid right).array.getD (left + t) 0) ∧
      (merge a left mid right).array
        = stateAt a (merge a left mid right).events (merge a left mid right).events.length ∧
      mergeSort [4, 2] 0 1 = merge [4, 2] 0 (0 + (1 - 0) / 2) 1 ∧
      mergeSort [4, 2] 0 1 = ⟨[2, 4], [⟨[2, 2], 100, 0, -1⟩, ⟨[2, 4], 100, 1, -1⟩]⟩ := by
  rw [merge_eq_keyed]
  obtain ⟨hlen, hlast, hev⟩ := Keyed.merge_events (fun x : Int => x) 0 a left mid right h1 h2 h3
  refine ⟨hlen, ?_, hlast, ?_, mergeSort_run_42⟩
  · intro t ht
    obtain ⟨e1, e2, _, e4, e5⟩ := hev t ht
    exact ⟨e1, e2, e4, e5⟩
  · rw [mergeSort_run_42]
    exact merge_run_42.symm

theorem merge_events_are_writes_witness :
    (0 : Nat) ≤ 0 ∧ 0 < 1 ∧ 1 < [4, 2].length ∧
      (merge [4, 2] 0 0 1).events.length = 1 - 0 + 1 :=
  ⟨by decide, by decide, by decide,
    (merge_events_are_writes [4, 2] 0 0 1 (by decide) (by decide) (by decide)).1⟩

namespace Keyed

variable {α : Type}

/-! ### Bubble sort on an array that is already in order -/

theorem bubbleSort_of_sorted (key : α → Int) (d : α) (a : List α) (size : Nat)
    (h : ∀ j, j + 1 < size → key (a.getD j d) ≤ key (a.getD (j + 1) d)) :
    bubbleSort key d a size = ⟨a, []⟩ := by
  refine bubbleSort_invariant key d a size (fun s => s = ⟨a, []⟩) rfl ?_
  intro s j hj hs
  subst hs
  rcases bubbleStep_cases key d size ⟨a, []⟩ j with ⟨_, e⟩ | ⟨hgt, _⟩
  · exact e
  · have := h j hj
    simp only [] at hgt
    omega

/-! ### Merge sort: number and shape of the events -/

theorem merge_events_length (key : α → Int) (d : α) (a : List α) (left mid right : Nat) :
    (merge key d a left mid right).events.length = (mid + 1 - left) + (right - mid) := by
  rw [merge_spec]
  simp [writeEvents_length, mergeList_length, bufL, bufR]

theorem writeEvents_shape : ∀ (vs ws arr brr : List α) (k : Nat), vs.length = ws.length →
    (writeEvents arr k vs).map eventShape = (writeEvents brr k ws).map eventShape
  | [], [], _, _, _, _ => rfl
  | [], _ :: _, _, _, _, h => by simp at h
  | _ :: _, [], _, _, _, h => by simp at h
  | v :: vs, w :: ws, arr, brr, k, h => by
    simp only [writeEvents, List.map_cons]
    rw [writeEvents_shape vs ws _ (brr.set k w) (k + 1) (by simpa using h)]
    rfl

theorem merge_shape (key : α → Int) (d : α) (a b : List α) (left mid right : Nat) :
    (merge key d a left mid right).events.map eventShape
      = (merge key d b left mid right).events.map eventShape := by
  rw [merge_spec, merge_spec]
  exact writeEvents_shape _ _ _ _ _ (by simp [mergeList_length, bufL, bufR])

theorem mergeSort_unfold (key : α → Int) (d : α) (a : List α) (left right : Nat)
    (h : left < right) :
    mergeSort key d a left right =
      ⟨(merge key d (mergeSort key d (mergeSort key d a left (midpoint left right)).array
          (midpoint left right + 1) right).array left (midpoint left right) right).array,
        (mergeSort key d a left (midpoint left right)).events
          ++ (mergeSort key d (mergeSort key d a left (midpoint left right)).array
              (midpoint left right + 1) right).events
          ++ (merge key d (mergeSort key d (mergeSort key d a left (midpoint left right)).array
              (midpoint left right + 1) right).array left (midpoint left right) right).events⟩ := by
  conv_lhs => rw [mergeSort, dif_pos h]
  rfl

theorem mergeSort_of_ge (key : α → Int) (d : α) (a : List α) (left right : Nat)
    (h : right ≤ left) : mergeSort key d a left right = ⟨a, []⟩ := by
  rw [mergeSort, dif_neg (by omega)]

theorem mergeSort_shape (key : α → Int) (d : α) :
    ∀ (n : Nat) (a b : List α) (left right : Nat), right - left = n →
      (mergeSort key d a left right).events.map eventShape
        = (mergeSort key d b left right).events.map eventShape := by
  intro n
  induction n using Nat.strong_induction_on with
  | _ n ih =>
    intro a b left right hn
    by_cases hlt : left < right
    · rw [mergeSort_unfold key d a left right hlt, mergeSort_unfold key d b left right hlt]
      have hm : midpoint left right = left + (right - left) / 2 := rfl
      simp only [List.map_append]
      rw [ih _ (by omega) a b left (midpoint left right) rfl,
        ih _ (by omega) (mergeSort key d a left (midpoint left right)).array
          (mergeSort key d b left (midpoint left right)).array (midpoint left right + 1) right rfl,
        merge_shape key d _ (mergeSort key d (mergeSort key d b left (midpoint left right)).array
          (midpoint left right + 1) right).array]
    · rw [mergeSort_of_ge key d a left right (by omega),
        mergeSort_of_ge key d b left right (by omega)]

/-! ### Merge sort: cells outside the range -/

theorem writeAll_getD_ge (d : α) : ∀ (vs arr : List α) (k p : Nat), k + vs.length ≤ p →
    (writeAll arr k vs).getD p d = arr.getD p d
  | [], _, _, _, _ => rfl
  | v :: vs, arr, k, p, h => by
    simp only [List.length_cons] at h
    rw [writeAll, writeAll_getD_ge d vs _ _ p (by omega), getD_set_ne d _ _ (by omega)]

theorem writeEvents_frame (d : α) : ∀ (vs arr : List α) (k : Nat),
    ∀ e ∈ writeEvents arr k vs, ∀ p, (p < k ∨ k + vs.length ≤ p) →
      e.array.getD p d = arr.getD p d
  | [], _, _, e, he, _, _ => by simp [writeEvents] at he
  | v :: vs, arr, k, e, he, p, hp => by
    simp only [List.length_cons] at hp
    simp only [writeEvents, List.mem_cons] at he
    rcases he with h | h
    · rw [h]
      exact getD_set_ne d _ _ (by omega)
    · rw [writeEvents_frame d vs (arr.set k v) (k + 1) e h p (by omega)]
      exact getD_set_ne d _ _ (by omega)

theorem merge_frame (key : α → Int) (d : α) (a : List α) (left mid right : Nat)
    (h1 : left ≤ mid) (h2 : mid ≤ right) (p : Nat) (hp : p < left ∨ right < p) :
    (merge key d a left mid right).array.getD p d = a.getD p d ∧
      ∀ e ∈ (merge key d a left mid right).events, e.array.getD p d = a.getD p d := by
  rw [merge_spec]
  have hlen : (mergeList key (bufL d a left mid) (bufR d a mid right)).length
      = (mid + 1 - left) + (right - mid) := by simp [mergeList_length, bufL, bufR]
  refine ⟨?_, fun e he => writeEvents_frame d _ a left e he p (by rw [hlen]; omega)⟩
  rcases hp with hp | hp
  · exact writeAll_getD_lt d _ _ _ p hp
  · exact writeAll_getD_ge d _ _ _ p (by rw [hlen]; omega)

theorem mergeSort_outside (key : α → Int) (d : α) :
    ∀ (n : Nat) (a : List α) (left right : Nat), right - left = n →
      ∀ p, (p < left ∨ right < p) →
        (mergeSort key d a left right).array.getD p d = a.getD p d ∧
        ∀ e ∈ (mergeSort key d a left right).events, e.array.getD p d = a.getD p d := by
  intro n
  induction n using Nat.strong_induction_on with
  | _ n ih =>
    intro a left right hn p hp
    by_cases hlt : left < right
    · rw [mergeSort_unfold key d a left right hlt]
      have hm : midpoint left right = left + (right - left) / 2 := rfl
      obtain ⟨f1, g1⟩ := ih _ (by omega) a left (midpoint left right) rfl p (by omega)
      obtain ⟨f2, g2⟩ := ih _ (by omega) (mergeSort key d a left (midpoint left right)).array
        (midpoint left right + 1) right rfl p (by omega)
      obtain ⟨f3, g3⟩ := merge_frame key d
        (mergeSort key d (mergeSort key d a left (midpoint left right)).array
          (midpoint left right + 1) right).array left (midpoint left right) right
        (by omega) (by omega) p hp
      refine ⟨by rw [f3, f2, f1], ?_⟩
      intro e he
      simp only [List.mem_append] at he
      rcases he with (h | h) | h
      · exact g1 e h
      · rw [g2 e h, f1]
      · rw [g3 e h, f2, f1]
    · rw [mergeSort_of_ge key d a left right (by omega)]
      exact ⟨rfl, fun e he => by simp at he⟩

end Keyed

/-! ## Termination of `mergeSort` -/

theorem mergeSort_step (a : List Int) (left right : Nat) (h : left < right) :
    mergeSort a left right =
      ⟨(merge (mergeSort (mergeSort a left (midpoint left right)).array
          (midpoint left right + 1) right).array left (midpoint left right) right).array,
        (mergeSort a left (midpoint left right)).events
          ++ (mergeSort (mergeSort a left (midpoint left right)).array
              (midpoint left right + 1) right).events
          ++ (merge (mergeSort (mergeSort a left (midpoint left right)).array
              (midpoint left right + 1) right).array left (midpoint left right) right).events⟩ := by
  conv_lhs => rw [mergeSort, dif_pos h]
  rfl

theorem mergeSort_base (a : List Int) (left right : Nat) (h : right ≤ left) :
    mergeSort a left right = ⟨a, []⟩ := by
  rw [mergeSort, dif_neg (by omega)]

theorem mergeSortFuel_eq : ∀ (fuel : Nat) (a : List Int) (left right : Nat),
    right - left < fuel → mergeSortFuel fuel a left right = some (mergeSort a left right)
  | 0, _, _, _, h => by omega
  | fuel + 1, a, left, right, h => by
    rw [mergeSortFuel]
    by_cases hlt : left < right
    · rw [if_pos hlt]
      simp only []
      rw [mergeSortFuel_eq fuel a left _ (by omega)]
      simp only []
      rw [mergeSortFuel_eq fuel _ _ right (by omega)]
      simp only []
      rw [mergeSort_step a left right hlt]
      rfl
    · rw [if_neg hlt, mergeSort_base a left right (by omega)]

/-! ## Counting the events of `mergeSort` -/

theorem mergeWrites_small (n : Nat) (h : n < 2) : mergeWrites n = 0 := by
  rw [mergeWrites, dif_neg (by omega)]

theorem mergeWrites_step (n : Nat) (h : 2 ≤ n) :
    mergeWrites n = mergeWrites ((n + 1) / 2) + mergeWrites (n / 2) + n := by
  conv_lhs => rw [mergeWrites, dif_pos h]

/-- The closed form, for any exponent `j` with `2 ^ j / 2 <= n <= 2 ^ j`. -/
theorem mergeWrites_closed : ∀ (n j : Nat), 1 ≤ n → n ≤ 2 ^ j → 2 ^ j ≤ 2 * n →
    mergeWrites n + 2 ^ j = n * j + n := by
  intro n
  induction n using Nat.strong_induction_on with
  | _ n ih =>
    intro j h1 h2 h3
    by_cases hn : n < 2
    · have hn1 : n = 1 := by omega
      subst hn1
      rw [mergeWrites_small 1 (by omega)]
      cases j with
      | zero => simp
      | succ j =>
        cases j with
        | zero => simp
        | succ j =>
          have : 2 ^ (j + 1 + 1) = 4 * 2 ^ j := by rw [pow_succ, pow_succ]; omega
          have : 0 < 2 ^ j := Nat.pow_pos (by omega)
          omega
    · cases j with
      | zero => simp at h2; omega
      | succ j =>
        have hp : 2 ^ (j + 1) = 2 * 2 ^ j := by rw [pow_succ]; omega
        have hpos : 0 < 2 ^ j := Nat.pow_pos (by omega)
        have heven : 2 ^ j ≤ 2 * (n / 2) := by
          cases j with
          | zero => simp; omega
          | succ i =>
            have : 2 ^ (i + 1) = 2 * 2 ^ i := by rw [pow_succ]; omega
            omega
        have ihc := ih ((n + 1) / 2) (by omega) j (by omega) (by omega) (by omega)
        have ihf := ih (n / 2) (by omega) j (by omega) (by omega) (by omega)
        have hcf : (n + 1) / 2 + n / 2 = n := by omega
        have hmul : (n + 1) / 2 * j + n / 2 * j = n * j := by
          rw [← Nat.add_mul, hcf]
        rw [mergeWrites_step n (by omega), hp, Nat.mul_succ]
        omega

theorem mergeWrites_clog (n : Nat) (h : 1 ≤ n) :
    mergeWrites n + 2 ^ Nat.clog 2 n = n * Nat.clog 2 n + n := by
  apply mergeWrites_closed n _ h (Nat.le_pow_clog (by omega) n)
  by_cases h1 : n = 1
  · subst h1; simp
  · have hlt := Nat.pow_pred_clog_lt_self (b := 2) (by omega) (x := n) (by omega)
    have hpos : 0 < Nat.clog 2 n := Nat.clog_pos (by omega) (by omega)
    obtain ⟨c, hc⟩ : ∃ c, Nat.clog 2 n = c + 1 := ⟨Nat.clog 2 n - 1, by omega⟩
    rw [hc] at hlt ⊢
    simp only [Nat.pred_succ] at hlt
    rw [pow_succ]
    omega

theorem mergeWrites_pow (k : Nat) : mergeWrites (2 ^ k) = k * 2 ^ k := by
  have hpos : 0 < 2 ^ k := Nat.pow_pos (by omega)
  have := mergeWrites_closed (2 ^ k) k hpos (Nat.le_refl _) (by omega)
  rw [Nat.mul_comm k]
  omega

theorem mergeWrites_100 : mergeWrites 100 = 672 := by
  have := mergeWrites_closed 100 7 (by omega) (by norm_num) (by norm_num)
  norm_num at this
  omega

namespace Keyed

variable {α : Type}

theorem mergeSort_events_length (key : α → Int) (d : α) :
    ∀ (n : Nat) (a : List α) (left right : Nat), right + 1 - left = n →
      (mergeSort key d a left right).events.length = mergeWrites n := by
  intro n
  induction n using Nat.strong_induction_on with
  | _ n ih =>
    intro a left right hn
    by_cases hlt : left < right
    · rw [mergeSort_unfold key d a left right hlt]
      have hm : midpoint left right = left + (right - left) / 2 := rfl
      simp only [List.length_append]
      rw [ih ((n + 1) / 2) (by omega) a left (midpoint left right) (by omega),
        ih (n / 2) (by omega) _ (midpoint left right + 1) right (by omega),
        merge_events_length, mergeWrites_step n (by omega)]
      omega
    · rw [mergeSort_of_ge key d a left right (by omega), mergeWrites_small n (by omega)]
      rfl

end Keyed

theorem mergeSort_events_count (a : List Int) (left right : Nat) :
    (mergeSort a left right).events.length = mergeWrites (right + 1 - left) := by
  rw [mergeSort_eq_keyed _ a left right rfl]
  exact Keyed.mergeSort_events_length (fun x : Int => x) 0 _ a left right rfl

/-! ## Inversions and the swaps of `bubbleSort` -/

theorem countP_eq_filter_range (p : Int → Bool) (l : List Int) :
    ((List.range l.length).filter fun j => p (l.getD j 0)).length = l.countP p := by
  conv_rhs => rw [← Keyed.map_getD_range (0 : Int) l]
  rw [List.countP_map, List.countP_eq_length_filter]
  rfl

theorem inversions_cons (x : Int) (l : List Int) :
    inversions (x :: l) = l.countP (fun y => x > y) + inversions l := by
  unfold inversions
  rw [List.length_cons, List.range_succ_eq_map, List.map_cons, List.sum_cons, List.map_map]
  congr 1
  · rw [← countP_eq_filter_range (fun y => x > y) l]
    simp [List.filter_cons, List.filter_map, Function.comp_def]
  · congr 1
    apply List.map_congr_left
    intro i _
    simp [List.filter_cons, List.filter_map, Function.comp_def]

/-- Exchanging two neighbouring cells that are out of order removes exactly one
inversion. -/
theorem inversions_swap (x y : Int) (post : List Int) (h : x > y) : ∀ pre : List Int,
    inversions (pre ++ x :: y :: post) = inversions (pre ++ y :: x :: post) + 1
  | [] => by
    simp only [List.nil_append, inversions_cons, List.countP_cons]
    have h1 : decide (x > y) = true := by simpa using h
    have h2 : decide (y > x) = false := by simp; omega
    simp only [h1, h2, if_true, Bool.false_eq_true, if_false]
    omega
  | p :: pre => by
    simp only [List.cons_append, inversions_cons]
    rw [inversions_swap x y post h pre]
    have hperm : (pre ++ x :: y :: post).Perm (pre ++ y :: x :: post) :=
      List.Perm.append_left _ (List.Perm.swap _ _ _)
    rw [hperm.countP_eq]
    omega

theorem inversions_sorted : ∀ l : List Int, l.Pairwise (fun x y => x ≤ y) → inversions l = 0
  | [], _ => rfl
  | x :: l, h => by
    have h2 := List.pairwise_cons.1 h
    rw [inversions_cons, inversions_sorted l h2.2]
    simp only [Nat.add_zero, List.countP_eq_zero]
    intro y hy
    have := h2.1 y hy
    simp; omega

theorem inversions_bound : ∀ l : List Int, 2 * inversions l ≤ l.length * (l.length - 1)
  | [] => by simp [inversions]
  | x :: l => by
    rw [inversions_cons]
    have h1 := inversions_bound l
    have h2 : l.countP (fun y => x > y) ≤ l.length := List.countP_le_length _
    simp only [List.length_cons, Nat.add_sub_cancel]
    cases hl : l.length with
    | zero => rw [hl] at h1 h2; omega
    | succ m =>
      rw [hl] at h1 h2
      simp only [Nat.add_sub_cancel] at h1
      have e1 : (m + 1 + 1) * (m + 1) = (m + 1) * m + 2 * (m + 1) := by ring
      omega

/-- Each event of `bubbleSort` pays for one inversion. -/
theorem bubbleSort_inversions (a : List Int) :
    (bubbleSort a a.length).events.length + inversions (bubbleSort a a.length).array
      = inversions a := by
  rw [bubbleSort_eq_keyed]
  refine (Keyed.bubbleSort_invariant (fun x : Int => x) 0 a a.length
    (fun s => s.array.length = a.length ∧ s.events.length + inversions s.array = inversions a)
    ⟨rfl, by simp⟩ ?_).2
  intro s j hj ⟨hl, hinv⟩
  rcases Keyed.bubbleStep_cases (fun x : Int => x) 0 a.length s j with ⟨_, e⟩ | ⟨hgt, e⟩
  · rw [e]; exact ⟨hl, hinv⟩
  · rw [e]
    obtain ⟨pre, x, y, post, h1, h2, h3, h4⟩ :=
      Keyed.swap_adjacent (0 : Int) s.array j (by omega)
    rw [h3, h4] at hgt
    refine ⟨by simp [Keyed.swap_length, hl], ?_⟩
    simp only [List.length_append, List.length_singleton]
    rw [h2]
    rw [h1, inversions_swap x y post hgt pre] at hinv
    omega

/-! ## The bars drawn by `drawArray` -/

theorem barWidth_bounds (size : Int) (h1 : 1 ≤ size) :
    barWidth size = SCREEN_WIDTH / size ∧ 0 ≤ barWidth size ∧
      barWidth size * size ≤ SCREEN_WIDTH := by
  have e : barWidth size = SCREEN_WIDTH / size :=
    Int.tdiv_eq_ediv (by decide) (by omega)
  refine ⟨e, ?_, ?_⟩
  · rw [e]; exact Int.ediv_nonneg (by decide) (by omega)
  · rw [e]; exact Int.ediv_mul_le _ (by omega)

theorem barHeight_bounds (array : List Int) (size : Int) (i : Nat) (h1 : 1 ≤ size)
    (hv : 0 ≤ array.getD i 0 ∧ array.getD i 0 < size) :
    barHeight array size i = array.getD i 0 * SCREEN_HEIGHT / size ∧
      0 ≤ barHeight array size i ∧ barHeight array size i < SCREEN_HEIGHT := by
  have hnn : 0 ≤ array.getD i 0 * SCREEN_HEIGHT := Int.mul_nonneg hv.1 (by decide)
  have e : barHeight array size i = array.getD i 0 * SCREEN_HEIGHT / size :=
    Int.tdiv_eq_ediv hnn (by omega)
  refine ⟨e, ?_, ?_⟩
  · rw [e]; exact Int.ediv_nonneg hnn (by omega)
  · rw [e]
    apply Int.ediv_lt_of_lt_mul (by omega)
    rw [Int.mul_comm SCREEN_HEIGHT size]
    exact Int.mul_lt_mul_of_pos_right hv.2 (by decide)

/-! ## Facts about the outputs used by several statements -/

theorem bubbleSort_output_sorted (a : List Int) :
    (bubbleSort a a.length).array.Pairwise (fun x y => x ≤ y) := by
  rw [bubbleSort_eq_keyed]
  have hlen := (Keyed.bubbleSort_preserves (fun x : Int => x) 0 a).1
  refine pairwise_of_getD _ 0 _ ?_
  intro p q hpq hq
  exact (Keyed.bubbleSort_sorted (fun x : Int => x) 0 a p q hpq (by rw [← hlen]; exact hq)).2

theorem mergeSort_output_length (a : List Int) (left right : Nat)
    (h1 : left ≤ right) (h2 : right < a.length) :
    (mergeSort a left right).array.length = a.length := by
  rw [mergeSort_eq_keyed _ a left right rfl]
  obtain ⟨S, hS, hlen, _⟩ := Keyed.mergeSort_range (fun x : Int => x) 0 a left right h1 h2
  rw [hS]; simp; omega

/-! ## The claims, continued -/

/-- C12: on an array that is already non-decreasing `bubbleSort` emits no event
and leaves the array as it is; so a second run of `bubbleSort` on its own
output emits no event and changes nothing. -/
theorem bubbleSort_sorted_input (a : List Int) (h : a.Pairwise (fun x y => x ≤ y)) :
    (bubbleSort a a.length).events = [] ∧ (bubbleSort a a.length).array = a ∧
      ∀ b : List Int,
        (bubbleSort (bubbleSort b b.length).array (bubbleSort b b.length).array.length).events = [] ∧
        (bubbleSort (bubbleSort b b.length).array (bubbleSort b b.length).array.length).array
          = (bubbleSort b b.length).array := by
  have key : ∀ c : List Int, c.Pairwise (fun x y => x ≤ y) → bubbleSort c c.length = ⟨c, []⟩ := by
    intro c hc
    rw [bubbleSort_eq_keyed]
    apply Keyed.bubbleSort_of_sorted
    intro j hj
    exact pairwise_getD (fun x y : Int => x ≤ y) 0 c hc j (j + 1) (by omega) hj
  refine ⟨by rw [key a h], by rw [key a h], ?_⟩
  intro b
  have := key (bubbleSort b b.length).array (bubbleSort_output_sorted b)
  rw [this]
  exact ⟨rfl, rfl⟩

theorem bubbleSort_sorted_input_witness :
    ([1, 3, 5] : List Int).Pairwise (fun x y => x ≤ y) ∧
      (bubbleSort [1, 3, 5] [1, 3, 5].length).events = [] ∧
      (bubbleSort [1, 3, 5] [1, 3, 5].length).array = [1, 3, 5] :=
  have h : ([1, 3, 5] : List Int).Pairwise (fun x y => x ≤ y) := by decide
  ⟨h, (bubbleSort_sorted_input [1, 3, 5] h).1, (bubbleSort_sorted_input [1, 3, 5] h).2.1⟩

/-- C13: the events of `mergeSort` do not depend on the values.  For two arrays
of the same length and the same valid range, the two runs emit the same number
of events, with the same primary indices, secondary indices and sizes, in the
same order.  (The hypotheses say which calls are valid; the proof does not
need them, the indices written depend on `left` and `right` alone.) -/
theorem mergeSort_events_oblivious (a b : List Int) (left right : Nat)
    (_hlen : a.length = b.length) (_h1 : left ≤ right) (_h2 : right < a.length) :
    (mergeSort a left right).events.length = (mergeSort b left right).events.length ∧
      (mergeSort a left right).events.map (fun e => e.idx1)
        = (mergeSort b left right).events.map (fun e => e.idx1) ∧
      (mergeSort a left right).events.map (fun e => e.idx2)
        = (mergeSort b left right).events.map (fun e => e.idx2) ∧
      (mergeSort a left right).events.map (fun e => e.size)
        = (mergeSort b left right).events.map (fun e => e.size) := by
  have hs : (mergeSort a left right).events.map eventShape
      = (mergeSort b left right).events.map eventShape := by
    rw [mergeSort_eq_keyed _ a left right rfl, mergeSort_eq_keyed _ b left right rfl]
    exact Keyed.mergeSort_shape (fun x : Int => x) 0 _ a b left right rfl
  refine ⟨?_, ?_, ?_, ?_⟩
  · simpa using congrArg List.length hs
  · simpa [eventShape, List.map_map, Function.comp_def] using
      congrArg (List.map (fun t : Int × Int × Int => t.2.1)) hs
  · simpa [eventShape, List.map_map, Function.comp_def] using
      congrArg (List.map (fun t : Int × Int × Int => t.2.2)) hs
  · simpa [eventShape, List.map_map, Function.comp_def] using
      congrArg (List.map (fun t : Int × Int × Int => t.1)) hs

theorem mergeSort_events_oblivious_witness :
    ([4, 2] : List Int).length = ([1, 2] : List Int).length ∧ (0 : Nat) ≤ 1 ∧
      1 < ([4, 2] : List Int).length ∧
      (mergeSort [4, 2] 0 1).events.map (fun e => e.idx1)
        = (mergeSort [1, 2] 0 1).events.map (fun e => e.idx1) :=
  ⟨by decide, by decide, by decide,
    (mergeSort_events_oblivious [4, 2] [1, 2] 0 1 (by decide) (by decide) (by decide)).2.1⟩

/-- C14: a call `mergeSort(a, left, right)` with `left >= right`, in particular
on a one-cell range `left == right`, emits no event and leaves the array as it
is.  It performs no merge: a call of `merge` with `left <= mid`, the only kind
`mergeSort` makes, emits at least one event. -/
theorem mergeSort_trivial_range (a : List Int) (left right : Nat) (h : right ≤ left) :
    mergeSort a left right = ⟨a, []⟩ ∧ mergeSort a left left = ⟨a, []⟩ ∧
      ∀ (b : List Int) (l m r : Nat), l ≤ m → (merge b l m r).events ≠ [] := by
  refine ⟨mergeSort_base a left right h, mergeSort_base a left left (Nat.le_refl _), ?_⟩
  intro b l m r hlm h0
  have := Keyed.merge_events_length (fun x : Int => x) 0 b l m r
  rw [← merge_eq_keyed, h0] at this
  simp only [List.length_nil] at this
  omega

theorem mergeSort_trivial_range_witness :
    (1 : Nat) ≤ 1 ∧ mergeSort [4, 2] 1 1 = ⟨[4, 2], []⟩ ∧
      ((0 : Nat) ≤ 0 ∧ (merge [4, 2] 0 0 1).events ≠ []) :=
  ⟨by decide, (mergeSort_trivial_range [4, 2] 1 1 (by decide)).1,
    by decide, (mergeSort_trivial_range [4, 2] 1 1 (by decide)).2.2 [4, 2] 0 0 1 (by decide)⟩

/-- C15: `mergeSort(a, left, right)` on a valid range changes only the cells
`left..right`: the array keeps its length, and every cell at an index below
`left` or above `right` holds the same value after the call, and in the array
seen by every callback during the call, as before the call. -/
theorem mergeSort_frame (a : List Int) (left right : Nat)
    (h1 : left ≤ right) (h2 : right < a.length) :
    (mergeSort a left right).array.length = a.length ∧
      (∀ p : Nat, (p < left ∨ right < p) →
        (mergeSort a left right).array.getD p 0 = a.getD p 0) ∧
      ∀ e ∈ (mergeSort a left right).events,
        e.array.length = a.length ∧
        ∀ p : Nat, (p < left ∨ right < p) → e.array.getD p 0 = a.getD p 0 := by
  have hlen := mergeSort_output_length a left right h1 h2
  rw [mergeSort_eq_keyed _ a left right rfl] at hlen ⊢
  obtain ⟨S, _, _, _, _, _, hev, _⟩ :=
    Keyed.mergeSort_range (fun x : Int => x) 0 a left right h1 h2
  refine ⟨hlen, ?_, ?_⟩
  · intro p hp
    exact (Keyed.mergeSort_outside (fun x : Int => x) 0 _ a left right rfl p hp).1
  · intro e he
    refine ⟨(hev e he).1, ?_⟩
    intro p hp
    exact (Keyed.mergeSort_outside (fun x : Int => x) 0 _ a left right rfl p hp).2 e he

theorem mergeSort_frame_witness :
    (1 : Nat) ≤ 2 ∧ 2 < ([7, 4, 2, 9] : List Int).length ∧
      (mergeSort [7, 4, 2, 9] 1 2).array.length = ([7, 4, 2, 9] : List Int).length ∧
      (∀ p : Nat, (p < 1 ∨ 2 < p) →
        (mergeSort [7, 4, 2, 9] 1 2).array.getD p 0 = ([7, 4, 2, 9] : List Int).getD p 0) ∧
      ∀ e ∈ (mergeSort [7, 4, 2, 9] 1 2).events,
        e.array.length = ([7, 4, 2, 9] : List Int).length ∧
        ∀ p : Nat, (p < 1 ∨ 2 < p) → e.array.getD p 0 = ([7, 4, 2, 9] : List Int).getD p 0 :=
  ⟨by decide, by decide, mergeSort_frame [7, 4, 2, 9] 1 2 (by decide) (by decide)⟩

/-- C18: for `left < right` the split point `mid = left + (right - left) / 2`
satisfies `left <= mid < right`; the two ranges `left..mid` and `mid+1..right`
are non-empty, lie inside `left..right` and are strictly shorter; the run
lengths `n1 = mid - left + 1` and `n2 = right - mid` are at least 1 and add up
to `right - left + 1`; `mergeSort` is the two recursive calls followed by
`merge`; and `mergeSort` returns for every `left` and `right`: run with a
bound on the recursion depth above `right - left`, it gives its result. -/
theorem mergeSort_split_terminates (left right : Nat) (h : left < right) :
    left ≤ midpoint left right ∧ midpoint left right < right ∧
      midpoint left right - left < right - left ∧
      right - (midpoint left right + 1) < right - left ∧
      1 ≤ midpoint left right - left + 1 ∧ 1 ≤ right - midpoint left right ∧
      (midpoint left right - left + 1) + (right - midpoint left right) = right - left + 1 ∧
      (∀ a : List Int, mergeSort a left right =
        ⟨(merge (mergeSort (mergeSort a left (midpoint left right)).array
            (midpoint left right + 1) right).array left (midpoint left right) right).array,
          (mergeSort a left (midpoint left right)).events
            ++ (mergeSort (mergeSort a left (midpoint left right)).array
                (midpoint left right + 1) right).events
            ++ (merge (mergeSort (mergeSort a left (midpoint left right)).array
                (midpoint left right + 1) right).array left (midpoint left right) right).events⟩) ∧
      ∀ (a : List Int) (l r fuel : Nat), r - l < fuel →
        mergeSortFuel fuel a l r = some (mergeSort a l r) := by
  have hm : midpoint left right = left + (right - left) / 2 := rfl
  refine ⟨by omega, by omega, by omega, by omega, by omega, by omega, by omega,
    fun a => mergeSort_step a left right h, fun a l r fuel hf => mergeSortFuel_eq fuel a l r hf⟩

theorem mergeSort_split_terminates_witness :
    (0 : Nat) < 99 ∧ (0 : Nat) ≤ midpoint 0 99 ∧ midpoint 0 99 < 99 :=
  ⟨by decide, (mergeSort_split_terminates 0 99 (by decide)).1,
    (mergeSort_split_terminates 0 99 (by decide)).2.1⟩

/-- C11, as stated, fails: on an array of length 3 `mergeSort(a, 0, 2)` emits
5 events (2 for the merge of cells `0..1`, 3 for the merge of cells `0..2`),
not `3 * ⌈log₂ 3⌉ = 6`. -/
theorem mergeSort_count_not_n_log_n :
    ¬ ((mergeSort [3, 2, 1] 0 ([3, 2, 1].length - 1)).events.length
        = [3, 2, 1].length * Nat.clog 2 [3, 2, 1].length) := by
  rw [mergeSort_events_count]
  have h3 := mergeWrites_closed 3 2 (by omega) (by norm_num) (by norm_num)
  have hc : Nat.clog 2 3 = 2 := by simp [Nat.clog]
  simp only [List.length_cons, List.length_nil]
  norm_num at h3 ⊢
  rw [hc]
  omega

/-- C11, amended: for an array of length `N >= 1`, `mergeSort(a, 0, N-1)` emits
one event per cell written by each call of `merge` of the recursion: the events
of a call on `left < right` are those of the two recursive calls followed by
the `right - left + 1` events of its `merge`.  Their total number is
`N * ⌈log₂ N⌉ + N - 2 ^ ⌈log₂ N⌉`; it is at most `N * ⌈log₂ N⌉`, and equal to
it exactly when `N` is a power of two. -/
theorem mergeSort_count_whole (a : List Int) (hN : 1 ≤ a.length) :
    (mergeSort a 0 (a.length - 1)).events.length + 2 ^ Nat.clog 2 a.length
        = a.length * Nat.clog 2 a.length + a.length ∧
      (mergeSort a 0 (a.length - 1)).events.length ≤ a.length * Nat.clog 2 a.length ∧
      ((mergeSort a 0 (a.length - 1)).events.length = a.length * Nat.clog 2 a.length
        ↔ a.length = 2 ^ Nat.clog 2 a.length) ∧
      ∀ (b : List Int) (left right : Nat), left < right →
        (mergeSort b left right).events =
          (mergeSort b left (midpoint left right)).events
            ++ (mergeSort (mergeSort b left (midpoint left right)).array
                (midpoint left right + 1) right).events
            ++ (merge (mergeSort (mergeSort b left (midpoint left right)).array
                (midpoint left right + 1) right).array left (midpoint left right) right).events ∧
        (merge (mergeSort (mergeSort b left (midpoint left right)).array
          (midpoint left right + 1) right).array left (midpoint left right) right).events.length
          = right - left + 1 := by
  have hcount : (mergeSort a 0 (a.length - 1)).events.length = mergeWrites a.length := by
    rw [mergeSort_events_count]; congr 1; omega
  have hclosed := mergeWrites_clog a.length hN
  have hle := Nat.le_pow_clog (b := 2) (by omega) a.length
  rw [hcount]
  refine ⟨hclosed, by omega, by omega, ?_⟩
  intro b left right hlt
  refine ⟨congrArg Run.events (mergeSort_step b left right hlt), ?_⟩
  have hm : midpoint left right = left + (right - left) / 2 := rfl
  rw [merge_eq_keyed, Keyed.merge_events_length]
  omega

theorem mergeSort_count_whole_witness :
    1 ≤ ([3, 2, 1] : List Int).length ∧
      (mergeSort [3, 2, 1] 0 (([3, 2, 1] : List Int).length - 1)).events.length
          + 2 ^ Nat.clog 2 ([3, 2, 1] : List Int).length
        = ([3, 2, 1] : List Int).length * Nat.clog 2 ([3, 2, 1] : List Int).length
          + ([3, 2, 1] : List Int).length :=
  ⟨by decide, (mergeSort_count_whole [3, 2, 1] (by decide)).1⟩

/-- C17: the number of events of `mergeSort` on a valid range of
`n = right - left + 1` cells is `W(n)`, where `W(1) = 0` and
`W(n) = W(⌈n/2⌉) + W(⌊n/2⌋) + n` for `n >= 2`, the left half `left..mid`
having `⌈n/2⌉ = (n + 1) / 2` cells and the right half `⌊n/2⌋ = n / 2`.  In
closed form `W(n) = n * ⌈log₂ n⌉ + n - 2 ^ ⌈log₂ n⌉`; so `W(2^k) = k * 2^k`
and `W(100) = 672`, the number of events of the program on its array of
`ARRAY_SIZE` cells. -/
theorem mergeSort_count_recurrence (a : List Int) (left right : Nat)
    (h1 : left ≤ right) (_h2 : right < a.length) :
    (mergeSort a left right).events.length = mergeWrites (right - left + 1) ∧
      mergeWrites 1 = 0 ∧
      (∀ n : Nat, 2 ≤ n →
        mergeWrites n = mergeWrites ((n + 1) / 2) + mergeWrites (n / 2) + n) ∧
      (left < right →
        midpoint left right - left + 1 = (right - left + 1 + 1) / 2 ∧
        right - midpoint left right = (right - left + 1) / 2) ∧
      (∀ n : Nat, 1 ≤ n →
        mergeWrites n = n * Nat.clog 2 n + n - 2 ^ Nat.clog 2 n ∧
        2 ^ Nat.clog 2 n ≤ n * Nat.clog 2 n + n) ∧
      (∀ k : Nat, mergeWrites (2 ^ k) = k * 2 ^ k) ∧
      mergeWrites 100 = 672 ∧
      ∀ b : List Int, b.length = ARRAY_SIZE →
        (mergeSort b 0 (ARRAY_SIZE - 1)).events.length = 672 := by
  have hm : midpoint left right = left + (right - left) / 2 := rfl
  refine ⟨?_, mergeWrites_small 1 (by omega), mergeWrites_step, fun hlt => by omega, ?_,
    mergeWrites_pow, mergeWrites_100, ?_⟩
  · rw [mergeSort_events_count]; congr 1; omega
  · intro n hn
    have := mergeWrites_clog n hn
    omega
  · intro b _
    rw [mergeSort_events_count]
    exact mergeWrites_100

theorem mergeSort_count_recurrence_witness :
    (0 : Nat) ≤ 2 ∧ 2 < ([3, 2, 1] : List Int).length ∧
      (mergeSort [3, 2, 1] 0 2).events.length = mergeWrites (2 - 0 + 1) :=
  ⟨by decide, by decide, (mergeSort_count_recurrence [3, 2, 1] 0 2 (by decide) (by decide)).1⟩

/-- C16: the number of events (swaps) of `bubbleSort(a, N)` is the number of
inversions of the input, the pairs of indices `i < j` with `a[i] > a[j]`; it
is at most `N (N - 1) / 2`. -/
theorem bubbleSort_count_inversions (a : List Int) :
    (bubbleSort a a.length).events.length = inversions a ∧
      (bubbleSort a a.length).events.length ≤ a.length * (a.length - 1) / 2 ∧
      inversions a =
        ((List.range a.length).map fun i =>
          ((List.range a.length).filter fun j => i < j ∧ a.getD i 0 > a.getD j 0).length).sum := by
  have h := bubbleSort_inversions a
  rw [inversions_sorted _ (bubbleSort_output_sorted a), Nat.add_zero] at h
  refine ⟨h, ?_, rfl⟩
  rw [h, Nat.le_div_iff_mul_le (by omega)]
  have := inversions_bound a
  omega

/-- C19: in `drawArray`, for `1 <= size <= SCREEN_WIDTH` and cell values in
`[0, size)`, the bar of every cell `i < size` has width `SCREEN_WIDTH / size`
and height `array[i] * SCREEN_HEIGHT / size` and lies inside the canvas:
`0 <= barHeight < SCREEN_HEIGHT`, `0 <= y`, `0 <= x` and
`x + barWidth <= SCREEN_WIDTH`; the product `array[i] * SCREEN_HEIGHT` fits a
32-bit `int`; and the bar height is non-decreasing in the value. -/
theorem drawArray_bars_inside (array : List Int) (size : Int) (highlight1 highlight2 : Int)
    (h1 : 1 ≤ size) (h2 : size ≤ SCREEN_WIDTH)
    (hv : ∀ i : Nat, (i : Int) < size → 0 ≤ array.getD i 0 ∧ array.getD i 0 < size) :
    (drawArray array size highlight1 highlight2).map Prod.fst
        = (List.range size.toNat).map (bar array size) ∧
      (∀ i : Nat, (i : Int) < size →
        (bar array size i).w = SCREEN_WIDTH / size ∧
        (bar array size i).h = array.getD i 0 * SCREEN_HEIGHT / size ∧
        0 ≤ (bar array size i).h ∧ (bar array size i).h < SCREEN_HEIGHT ∧
        0 ≤ (bar array size i).y ∧ (bar array size i).y + (bar array size i).h = SCREEN_HEIGHT ∧
        0 ≤ (bar array size i).x ∧
        (bar array size i).x + (bar array size i).w ≤ SCREEN_WIDTH ∧
        0 ≤ array.getD i 0 * SCREEN_HEIGHT ∧ array.getD i 0 * SCREEN_HEIGHT < 2 ^ 31) ∧
      ∀ i j : Nat, (i : Int) < size → (j : Int) < size →
        array.getD i 0 ≤ array.getD j 0 → (bar array size i).h ≤ (bar array size j).h := by
  obtain ⟨ew, hw0, hwle⟩ := barWidth_bounds size h1
  refine ⟨?_, ?_, ?_⟩
  · simp [drawArray, List.map_map, Function.comp_def]
  · intro i hi
    obtain ⟨eh, hh0, hhlt⟩ := barHeight_bounds array size i h1 (hv i hi)
    have hsw : SCREEN_WIDTH = 1920 := rfl
    have hsh : SCREEN_HEIGHT = 1080 := rfl
    have hx : (i : Int) * barWidth size + barWidth size ≤ barWidth size * size := by
      have : ((i : Int) + 1) * barWidth size ≤ size * barWidth size :=
        Int.mul_le_mul_of_nonneg_right (by omega) hw0
      rw [Int.add_mul, Int.one_mul, Int.mul_comm size] at this
      exact this
    have hprod : array.getD i 0 * SCREEN_HEIGHT < size * SCREEN_HEIGHT :=
      Int.mul_lt_mul_of_pos_right (hv i hi).2 (by decide)
    have hprod2 : size * SCREEN_HEIGHT ≤ SCREEN_WIDTH * SCREEN_HEIGHT :=
      Int.mul_le_mul_of_nonneg_right h2 (by decide)
    refine ⟨ew, eh, hh0, hhlt, ?_, ?_, ?_, ?_, Int.mul_nonneg (hv i hi).1 (by decide), ?_⟩
    · show 0 ≤ SCREEN_HEIGHT - barHeight array size i
      omega
    · show SCREEN_HEIGHT - barHeight array size i + barHeight array size i = SCREEN_HEIGHT
      omega
    · show 0 ≤ (i : Int) * barWidth size
      exact Int.mul_nonneg (by omega) hw0
    · show (i : Int) * barWidth size + barWidth size ≤ SCREEN_WIDTH
      omega
    · have : SCREEN_WIDTH * SCREEN_HEIGHT = 2073600 := by decide
      omega
  · intro i j hi hj hij
    rw [(barHeight_bounds array size i h1 (hv i hi)).1 |> fun e => show (bar array size i).h = _ from e,
      (barHeight_bounds array size j h1 (hv j hj)).1 |> fun e => show (bar array size j).h = _ from e]
    exact Int.ediv_le_ediv (by omega) (Int.mul_le_mul_of_nonneg_right hij (by decide))

theorem drawArray_bars_inside_witness :
    (1 : Int) ≤ 2 ∧ (2 : Int) ≤ SCREEN_WIDTH ∧
      (∀ i : Nat, (i : Int) < 2 →
        0 ≤ ([1, 0] : List Int).getD i 0 ∧ ([1, 0] : List Int).getD i 0 < 2) ∧
      (bar [1, 0] 2 0).h < SCREEN_HEIGHT ∧
      (bar [1, 0] 2 0).x + (bar [1, 0] 2 0).w ≤ SCREEN_WIDTH :=
  have hv : ∀ i : Nat, (i : Int) < 2 →
      0 ≤ ([1, 0] : List Int).getD i 0 ∧ ([1, 0] : List Int).getD i 0 < 2 := by
    intro i hi
    have : i = 0 ∨ i = 1 := by omega
    rcases this with h | h <;> subst h <;> decide
  have hb := (drawArray_bars_inside [1, 0] 2 (-1) (-1) (by decide) (by decide) hv).2.1 0
    (by decide)
  ⟨by decide, by decide, hv, hb.2.2.2.1, hb.2.2.2.2.2.2.2.1⟩

end SortViz
